import Mathlib

set_option maxHeartbeats 1000000

namespace LoyalSetup

/-- JSON values as produced by JSON.parse in loyal-openclaw-setup.js. Object
fields are kept as an ordered association list, matching JavaScript property
insertion order; numbers are modelled as integers, since no verified claim
depends on numeric precision, only on the truthiness of zero versus nonzero. -/
inductive Json where
  | null : Json
  | bool (b : Bool) : Json
  | num (n : Int) : Json
  | str (s : String) : Json
  | arr (elems : List Json) : Json
  | obj (fields : List (String × Json)) : Json

/-- JavaScript truthiness of a JSON value, as tested by the if-guards and the
binary or-else operator in the script. -/
def truthy : Json → Bool
  | Json.null => false
  | Json.bool b => b
  | Json.num n => n != 0
  | Json.str s => s != ""
  | Json.arr _ => true
  | Json.obj _ => true

/-- Whether a JSON value is the null value (also standing for undefined). -/
def isNull : Json → Bool
  | Json.null => true
  | _ => false

theorem isNull_eq_true (j : Json) : isNull j = true ↔ j = Json.null := by
  cases j <;> simp [isNull]

/-- Property read on an object field list: the value of the first binding of
the key, with Json.null standing for the undefined result of a missing key. -/
def getD : List (String × Json) → String → Json
  | [], _ => Json.null
  | (k2, v) :: rest, k => if k2 = k then v else getD rest k

/-- Whether the field list has a binding for the key. -/
def hasKey : List (String × Json) → String → Bool
  | [], _ => false
  | (k2, _) :: rest, k => k2 = k || hasKey rest k

/-- Property write on an object field list: replaces the first binding of the
key in place, appending a new binding when the key is absent, matching the
single property slot of a JavaScript object. -/
def setKey : List (String × Json) → String → Json → List (String × Json)
  | [], k, v => [(k, v)]
  | (k2, v2) :: rest, k, v =>
      if k2 = k then (k, v) :: rest else (k2, v2) :: setKey rest k v

theorem getD_setKey_self (fs : List (String × Json)) (k : String) (v : Json) :
    getD (setKey fs k v) k = v := by
  induction fs with
  | nil => simp [setKey, getD]
  | cons kv rest ih =>
      obtain ⟨k2, v2⟩ := kv
      by_cases h : k2 = k
      · simp [setKey, getD, h]
      · simp [setKey, getD, h, ih]

theorem getD_setKey_ne (fs : List (String × Json)) (k k2 : String) (v : Json)
    (h : k ≠ k2) : getD (setKey fs k v) k2 = getD fs k2 := by
  induction fs with
  | nil => simp [setKey, getD, h]
  | cons kv rest ih =>
      obtain ⟨k3, v3⟩ := kv
      by_cases h3 : k3 = k
      · simp [setKey, getD, h3, h]
      · simp [setKey, getD, h3, ih]

theorem setKey_setKey_self (fs : List (String × Json)) (k : String) (v w : Json) :
    setKey (setKey fs k v) k w = setKey fs k w := by
  induction fs with
  | nil => simp [setKey]
  | cons kv rest ih =>
      obtain ⟨k2, v2⟩ := kv
      by_cases h : k2 = k
      · simp [setKey, h]
      · simp [setKey, h, ih]

theorem hasKey_setKey_self (fs : List (String × Json)) (k : String) (v : Json) :
    hasKey (setKey fs k v) k = true := by
  induction fs with
  | nil => simp [setKey, hasKey]
  | cons kv rest ih =>
      obtain ⟨k2, v2⟩ := kv
      by_cases h : k2 = k
      · simp [setKey, hasKey, h]
      · simp [setKey, hasKey, h, ih]

theorem hasKey_setKey_ne (fs : List (String × Json)) (k k2 : String) (v : Json)
    (h : k ≠ k2) : hasKey (setKey fs k v) k2 = hasKey fs k2 := by
  induction fs with
  | nil => simp [setKey, hasKey, h]
  | cons kv rest ih =>
      obtain ⟨k3, v3⟩ := kv
      by_cases h3 : k3 = k
      · subst h3
        simp [setKey, hasKey]
      · simp [setKey, hasKey, h3, ih]

theorem getD_of_setKey_eq (fs : List (String × Json)) (k : String) (v : Json)
    (h : setKey fs k v = fs) : getD fs k = v := by
  induction fs with
  | nil => simp [setKey] at h
  | cons kv rest ih =>
      obtain ⟨k2, v2⟩ := kv
      by_cases h2 : k2 = k
      · subst h2
        simp [setKey] at h
        simp [getD, h]
      · simp [setKey, h2] at h
        simpa [getD, h2] using ih h

theorem setKey_eq_of_setKey_eq (fs : List (String × Json)) (k k2 : String)
    (v w : Json) (h : setKey fs k v = fs) (hne : k ≠ k2) :
    setKey (setKey fs k2 w) k v = setKey fs k2 w := by
  have hne2 : ¬(k2 = k) := fun hh => hne hh.symm
  induction fs with
  | nil => simp [setKey] at h
  | cons kv rest ih =>
      obtain ⟨k3, v3⟩ := kv
      by_cases h3 : k3 = k
      · subst h3
        simp [setKey] at h
        simp [setKey, hne, h]
      · simp [setKey, h3] at h
        by_cases h32 : k3 = k2
        · subst h32
          simp [setKey, hne2, h]
        · simp [setKey, h3, h32, ih h]

theorem setKey_getD_self (fs : List (String × Json)) (k : String)
    (h : hasKey fs k = true) : setKey fs k (getD fs k) = fs := by
  induction fs with
  | nil => simp [hasKey] at h
  | cons kv rest ih =>
      obtain ⟨k2, v2⟩ := kv
      by_cases h2 : k2 = k
      · subst h2
        simp [setKey, getD]
      · simp [hasKey, h2] at h
        simp [setKey, getD, h2, ih h]

/-- Models the strict-mode JavaScript assignment statement
root.k1.k2...kn = f (current value of root.k1...kn), as used by the config
reconciler. An object prefix is rebuilt functionally; an array prefix accepts
the write as a non-index property that JSON serialization then drops, so the
model leaves an array prefix unchanged; assigning through a primitive or a
missing intermediate value raises a TypeError, modelled as none. -/
def updatePath (j : Json) (p : List String) (f : Json → Json) : Option Json :=
  match j, p with
  | j, [] => some j
  | Json.obj fs, [k] => some (Json.obj (setKey fs k (f (getD fs k))))
  | Json.obj fs, k :: k2 :: ks =>
      if isNull (getD fs k) then none
      else (updatePath (getD fs k) (k2 :: ks) f).map (fun c => Json.obj (setKey fs k c))
  | Json.arr xs, _ :: _ => some (Json.arr xs)
  | Json.null, _ :: _ => none
  | Json.bool _, _ :: _ => none
  | Json.num _, _ :: _ => none
  | Json.str _, _ :: _ => none

theorem updatePath_shape (j : Json) (p : List String) (f : Json → Json) (c : Json)
    (hp : p ≠ []) (h : updatePath j p f = some c) :
    ((∃ fs, j = Json.obj fs) ∧ (∃ gs, c = Json.obj gs)) ∨
      ((∃ xs, j = Json.arr xs) ∧ c = j) := by
  match j, p with
  | Json.obj fs, [k] =>
      simp only [updatePath, Option.some.injEq] at h
      exact Or.inl ⟨⟨fs, rfl⟩, ⟨_, h.symm⟩⟩
  | Json.obj fs, k :: k2 :: ks =>
      simp only [updatePath] at h
      split at h
      · simp at h
      · obtain ⟨c2, _, hc⟩ := Option.map_eq_some'.mp h
        exact Or.inl ⟨⟨fs, rfl⟩, ⟨_, hc.symm⟩⟩
  | Json.arr xs, k :: ks =>
      simp only [updatePath, Option.some.injEq] at h
      exact Or.inr ⟨⟨xs, rfl⟩, h.symm⟩
  | Json.null, k :: ks => simp [updatePath] at h
  | Json.bool b, k :: ks => simp [updatePath] at h
  | Json.num n, k :: ks => simp [updatePath] at h
  | Json.str s, k :: ks => simp [updatePath] at h
  | j, [] => exact absurd rfl hp

theorem updatePath_self (f : Json → Json) (hf : ∀ j, f (f j) = f j) :
    ∀ (p : List String) (j c : Json),
      updatePath j p f = some c → updatePath c p f = some c := by
  intro p
  induction p with
  | nil =>
      intro j c h
      simp only [updatePath, Option.some.injEq] at h
      simp [updatePath, h]
  | cons k rest ih =>
      intro j c h
      cases rest with
      | nil =>
          cases j with
          | obj fs =>
              simp only [updatePath, Option.some.injEq] at h
              subst h
              simp [updatePath, getD_setKey_self, setKey_setKey_self, hf]
          | arr xs =>
              simp only [updatePath, Option.some.injEq] at h
              subst h
              simp [updatePath]
          | null => simp [updatePath] at h
          | bool b => simp [updatePath] at h
          | num n => simp [updatePath] at h
          | str s => simp [updatePath] at h
      | cons k2 ks =>
          cases j with
          | obj fs =>
              simp only [updatePath] at h
              split at h
              · simp at h
              · obtain ⟨c2, hc2, hc⟩ := Option.map_eq_some'.mp h
                subst hc
                have hshape := updatePath_shape _ _ _ _ (by simp) hc2
                have hc2ne : isNull c2 = false := by
                  rcases hshape with ⟨_, ⟨gs, hg⟩⟩ | ⟨⟨xs, hx⟩, hcj⟩
                  · simp [hg, isNull]
                  · rw [hcj, hx]
                    simp [isNull]
                have hrec := ih _ _ hc2
                simp only [updatePath, getD_setKey_self, hc2ne, Bool.false_eq_true,
                  if_false, hrec]
                simp [setKey_setKey_self]
          | arr xs =>
              simp only [updatePath, Option.some.injEq] at h
              subst h
              simp [updatePath]
          | null => simp [updatePath] at h
          | bool b => simp [updatePath] at h
          | num n => simp [updatePath] at h
          | str s => simp [updatePath] at h

/-- Two assignment paths that part ways at some component; a write along the
second path cannot disturb what the first path addresses. -/
inductive Diverges : List String → List String → Prop where
  | head {k k2 : String} {p q : List String} : k ≠ k2 → Diverges (k :: p) (k2 :: q)
  | tail {k : String} {p q : List String} : Diverges p q → Diverges (k :: p) (k :: q)

/-- The first path is a proper prefix of the second; a write along the second
path only rewrites the interior of the object the first path addresses. -/
inductive Deeper : List String → List String → Prop where
  | head {k : String} {q : List String} : q ≠ [] → Deeper [k] (k :: q)
  | tail {k : String} {p q : List String} : Deeper p q → Deeper (k :: p) (k :: q)

theorem Diverges.cons_shape_div {p q : List String} (h : Diverges p q) :
    (∃ a p2, p = a :: p2) ∧ (∃ b q2, q = b :: q2) := by
  cases h with
  | head hne => exact ⟨⟨_, _, rfl⟩, ⟨_, _, rfl⟩⟩
  | tail h2 => exact ⟨⟨_, _, rfl⟩, ⟨_, _, rfl⟩⟩

theorem Deeper.cons_shape_deep {p q : List String} (h : Deeper p q) :
    (∃ a p2, p = a :: p2) ∧ (∃ b q2, q = b :: q2) := by
  cases h with
  | head hq => exact ⟨⟨_, _, rfl⟩, ⟨_, _, rfl⟩⟩
  | tail h2 => exact ⟨⟨_, _, rfl⟩, ⟨_, _, rfl⟩⟩

theorem isNull_false_of_update (j : Json) (p : List String) (f : Json → Json)
    (c : Json) (hp : p ≠ []) (h : updatePath j p f = some c) :
    isNull c = false := by
  rcases updatePath_shape j p f c hp h with ⟨_, ⟨gs, hg⟩⟩ | ⟨⟨xs, hx⟩, hcj⟩
  · simp [hg, isNull]
  · rw [hcj, hx]
    simp [isNull]

theorem truthy_of_update (j : Json) (p : List String) (f : Json → Json)
    (c : Json) (hp : p ≠ []) (h : updatePath j p f = some c) :
    truthy c = true := by
  rcases updatePath_shape j p f c hp h with ⟨_, ⟨gs, hg⟩⟩ | ⟨⟨xs, hx⟩, hcj⟩
  · simp [hg, truthy]
  · rw [hcj, hx]
    simp [truthy]

theorem updatePath_fix_of_diverges {p q : List String} (hd : Diverges p q) :
    ∀ (f g : Json → Json) (j c : Json),
      updatePath j q g = some c → updatePath j p f = some j →
      updatePath c p f = some c := by
  induction hd with
  | @head k k2 p1 q1 hne =>
      intro f g j c hq hp
      cases j with
      | obj fs =>
          have hc : ∃ x, c = Json.obj (setKey fs k2 x) := by
            cases q1 with
            | nil =>
                simp only [updatePath, Option.some.injEq] at hq
                exact ⟨_, hq.symm⟩
            | cons k3 ks3 =>
                simp only [updatePath] at hq
                split at hq
                · simp at hq
                · obtain ⟨c2, _, hc2⟩ := Option.map_eq_some'.mp hq
                  exact ⟨_, hc2.symm⟩
          obtain ⟨x, hx⟩ := hc
          subst hx
          have hgd : getD (setKey fs k2 x) k = getD fs k :=
            getD_setKey_ne fs k2 k x (fun hh => hne hh.symm)
          cases p1 with
          | nil =>
              simp only [updatePath, Option.some.injEq, Json.obj.injEq] at hp
              simp only [updatePath, Option.some.injEq, Json.obj.injEq, hgd]
              exact setKey_eq_of_setKey_eq fs k k2 _ x hp hne
          | cons k3 ks3 =>
              simp only [updatePath] at hp
              split at hp
              · simp at hp
              · obtain ⟨cp, hcp, hcpe⟩ := Option.map_eq_some'.mp hp
                simp only [Option.some.injEq, Json.obj.injEq] at hcpe
                have hcpv : getD fs k = cp := getD_of_setKey_eq fs k cp hcpe
                simp only [updatePath, hgd]
                rw [if_neg (by simp_all)]
                rw [hcp]
                simp only [Option.map_some', Option.some.injEq, Json.obj.injEq]
                exact setKey_eq_of_setKey_eq fs k k2 cp x hcpe hne
      | arr xs =>
          simp only [updatePath, Option.some.injEq] at hq
          subst hq
          exact hp
      | null => simp [updatePath] at hq
      | bool b => simp [updatePath] at hq
      | num n => simp [updatePath] at hq
      | str s => simp [updatePath] at hq
  | @tail k p1 q1 hd1 ih =>
      intro f g j c hq hp
      obtain ⟨⟨a, p2, hp12⟩, ⟨b, q2, hq12⟩⟩ := hd1.cons_shape_div
      cases j with
      | obj fs =>
          rw [hq12] at hq
          simp only [updatePath] at hq
          split at hq
          · simp at hq
          · obtain ⟨cq, hcq, hcqe⟩ := Option.map_eq_some'.mp hq
            rw [hp12] at hp
            simp only [updatePath] at hp
            split at hp
            · simp at hp
            · obtain ⟨cp, hcp, hcpe⟩ := Option.map_eq_some'.mp hp
              simp only [Option.some.injEq, Json.obj.injEq] at hcpe
              have hcpv : getD fs k = cp := getD_of_setKey_eq fs k cp hcpe
              rw [← hcpv] at hcp
              rw [← hq12] at hcq
              rw [← hp12] at hcp
              have hstep := ih f g (getD fs k) cq hcq hcp
              rw [← hcqe]
              rw [hp12]
              simp only [updatePath, getD_setKey_self]
              rw [if_neg (by
                have := isNull_false_of_update (getD fs k) q1 g cq
                  (by rw [hq12]; simp) hcq
                simp [this])]
              rw [hp12] at hstep
              rw [hstep]
              simp [setKey_setKey_self]
      | arr xs =>
          rw [hq12] at hq
          simp only [updatePath, Option.some.injEq] at hq
          subst hq
          exact hp
      | null => rw [hq12] at hq; simp [updatePath] at hq
      | bool b => rw [hq12] at hq; simp [updatePath] at hq
      | num n => rw [hq12] at hq; simp [updatePath] at hq
      | str s => rw [hq12] at hq; simp [updatePath] at hq

theorem updatePath_fix_of_deeper {p q : List String} (hd : Deeper p q) :
    ∀ (f g : Json → Json), (∀ x, truthy x = true → f x = x) →
      ∀ (j c : Json),
        updatePath j q g = some c → updatePath j p f = some j →
        updatePath c p f = some c := by
  induction hd with
  | @head k q1 hq1 =>
      intro f g hf j c hq hp
      obtain ⟨b, q2, hq12⟩ := List.exists_cons_of_ne_nil hq1
      cases j with
      | obj fs =>
          rw [hq12] at hq
          simp only [updatePath] at hq
          split at hq
          · simp at hq
          · obtain ⟨cq, hcq, hcqe⟩ := Option.map_eq_some'.mp hq
            have htr : truthy cq = true :=
              truthy_of_update (getD fs k) (b :: q2) g cq (by simp) hcq
            rw [← hcqe]
            simp only [updatePath, Option.some.injEq, Json.obj.injEq,
              getD_setKey_self]
            rw [hf cq htr]
            exact setKey_setKey_self fs k cq cq
      | arr xs =>
          rw [hq12] at hq
          simp only [updatePath, Option.some.injEq] at hq
          subst hq
          exact hp
      | null => rw [hq12] at hq; simp [updatePath] at hq
      | bool b2 => rw [hq12] at hq; simp [updatePath] at hq
      | num n => rw [hq12] at hq; simp [updatePath] at hq
      | str s => rw [hq12] at hq; simp [updatePath] at hq
  | @tail k p1 q1 hd1 ih =>
      intro f g hf j c hq hp
      obtain ⟨⟨a, p2, hp12⟩, ⟨b, q2, hq12⟩⟩ := hd1.cons_shape_deep
      cases j with
      | obj fs =>
          rw [hq12] at hq
          simp only [updatePath] at hq
          split at hq
          · simp at hq
          · obtain ⟨cq, hcq, hcqe⟩ := Option.map_eq_some'.mp hq
            rw [hp12] at hp
            simp only [updatePath] at hp
            split at hp
            · simp at hp
            · obtain ⟨cp, hcp, hcpe⟩ := Option.map_eq_some'.mp hp
              simp only [Option.some.injEq, Json.obj.injEq] at hcpe
              have hcpv : getD fs k = cp := getD_of_setKey_eq fs k cp hcpe
              rw [← hcpv] at hcp
              rw [← hq12] at hcq
              rw [← hp12] at hcp
              have hstep := ih f g hf (getD fs k) cq hcq hcp
              rw [← hcqe]
              rw [hp12]
              simp only [updatePath, getD_setKey_self]
              rw [if_neg (by
                have := isNull_false_of_update (getD fs k) q1 g cq
                  (by rw [hq12]; simp) hcq
                simp [this])]
              rw [hp12] at hstep
              rw [hstep]
              simp [setKey_setKey_self]
      | arr xs =>
          rw [hq12] at hq
          simp only [updatePath, Option.some.injEq] at hq
          subst hq
          exact hp
      | null => rw [hq12] at hq; simp [updatePath] at hq
      | bool b2 => rw [hq12] at hq; simp [updatePath] at hq
      | num n => rw [hq12] at hq; simp [updatePath] at hq
      | str s => rw [hq12] at hq; simp [updatePath] at hq

/-- A reconciliation statement of the config merge: either an ensure-object
guard, x = x or-else empty object, or a plain assignment of a fixed value. -/
inductive StmtOp where
  | guard : StmtOp
  | assign (v : Json) : StmtOp

/-- A strict-mode assignment statement at a fixed property path. -/
structure Stmt where
  path : List String
  op : StmtOp

/-- The or-else-empty-object guard expression, v or-else curly-empty. -/
def orEmptyObj (v : Json) : Json := if truthy v then v else Json.obj []

def Stmt.fn : Stmt → Json → Json
  | ⟨_, StmtOp.guard⟩ => orEmptyObj
  | ⟨_, StmtOp.assign v⟩ => fun _ => v

def Stmt.isGuard : Stmt → Bool
  | ⟨_, StmtOp.guard⟩ => true
  | ⟨_, StmtOp.assign _⟩ => false

theorem orEmptyObj_truthy (v : Json) : truthy (orEmptyObj v) = true := by
  unfold orEmptyObj
  split
  · assumption
  · simp [truthy]

theorem Stmt.fn_idem (s : Stmt) : ∀ j, s.fn (s.fn j) = s.fn j := by
  intro j
  obtain ⟨p, op⟩ := s
  cases op with
  | guard =>
      simp only [Stmt.fn]
      unfold orEmptyObj
      split
      · rfl
      · simp [truthy]
  | assign v => simp [Stmt.fn]

theorem Stmt.fn_fix_of_guard (s : Stmt) (h : s.isGuard = true) :
    ∀ x, truthy x = true → s.fn x = x := by
  intro x hx
  obtain ⟨p, op⟩ := s
  cases op with
  | guard => simp [Stmt.fn, orEmptyObj, hx]
  | assign v => simp [Stmt.isGuard] at h

/-- Runs a sequence of reconciliation statements against a config value,
propagating a TypeError as none. -/
def runStmts : List Stmt → Json → Option Json
  | [], c => some c
  | s :: rest, c => (updatePath c s.path s.fn).bind (runStmts rest)

/-- Compatibility of an earlier statement with a later one: the later path
either diverges from the earlier one or descends strictly below an
ensure-object guard. -/
def CompatS (s t : Stmt) : Prop :=
  Diverges s.path t.path ∨ (Deeper s.path t.path ∧ s.isGuard = true)

theorem runStmts_fix (s : Stmt) :
    ∀ (rest : List Stmt) (c c2 : Json), (∀ t ∈ rest, CompatS s t) →
      updatePath c s.path s.fn = some c →
      runStmts rest c = some c2 → updatePath c2 s.path s.fn = some c2 := by
  intro rest
  induction rest with
  | nil =>
      intro c c2 _ hfix hrun
      simp only [runStmts, Option.some.injEq] at hrun
      rw [← hrun]
      exact hfix
  | cons t ts ih =>
      intro c c2 hcompat hfix hrun
      simp only [runStmts] at hrun
      obtain ⟨c1, hc1, hc1run⟩ := Option.bind_eq_some.mp hrun
      have hfix1 : updatePath c1 s.path s.fn = some c1 := by
        rcases hcompat t (by simp) with hdiv | ⟨hdeep, hguard⟩
        · exact updatePath_fix_of_diverges hdiv s.fn t.fn c c1 hc1 hfix
        · exact updatePath_fix_of_deeper hdeep s.fn t.fn
            (s.fn_fix_of_guard hguard) c c1 hc1 hfix
      exact ih c1 c2 (fun u hu => hcompat u (by simp [hu])) hfix1 hc1run

theorem runStmts_idem :
    ∀ (stmts : List Stmt), List.Pairwise CompatS stmts →
      ∀ c c2, runStmts stmts c = some c2 → runStmts stmts c2 = some c2 := by
  intro stmts
  induction stmts with
  | nil =>
      intro _ c c2 hrun
      simp only [runStmts, Option.some.injEq] at hrun
      simp [runStmts, hrun]
  | cons s rest ih =>
      intro hpw c c2 hrun
      obtain ⟨hhead, htail⟩ := List.pairwise_cons.mp hpw
      simp only [runStmts] at hrun
      obtain ⟨c1, hc1, hc1run⟩ := Option.bind_eq_some.mp hrun
      have hfix1 : updatePath c1 s.path s.fn = some c1 :=
        updatePath_self s.fn s.fn_idem s.path c c1 hc1
      have hfix2 : updatePath c2 s.path s.fn = some c2 :=
        runStmts_fix s rest c1 c2 hhead hfix1 hc1run
      have hrest : runStmts rest c2 = some c2 := ih htail c1 c2 hc1run
      simp [runStmts, hfix2, hrest]

/-- Executable check for Diverges. -/
def divergesB : List String → List String → Bool
  | k :: p, k2 :: q => if k = k2 then divergesB p q else true
  | _, _ => false

/-- Executable check for Deeper. -/
def deeperB : List String → List String → Bool
  | [k], k2 :: q => k = k2 && !q.isEmpty
  | k :: p, k2 :: q => k = k2 && deeperB p q
  | _, _ => false

theorem divergesB_sound : ∀ p q, divergesB p q = true → Diverges p q := by
  intro p
  induction p with
  | nil => intro q h; simp [divergesB] at h
  | cons k p2 ih =>
      intro q h
      cases q with
      | nil => simp [divergesB] at h
      | cons k2 q2 =>
          by_cases hk : k = k2
          · subst hk
            simp only [divergesB, if_pos rfl] at h
            exact Diverges.tail (ih q2 h)
          · exact Diverges.head hk

theorem deeperB_sound : ∀ p q, deeperB p q = true → Deeper p q := by
  intro p
  induction p with
  | nil => intro q h; simp [deeperB] at h
  | cons k p2 ih =>
      intro q h
      cases q with
      | nil => cases p2 <;> simp [deeperB] at h
      | cons k2 q2 =>
          cases p2 with
          | nil =>
              simp only [deeperB, Bool.and_eq_true, decide_eq_true_eq] at h
              obtain ⟨hk, hq⟩ := h
              subst hk
              exact Deeper.head (by
                cases q2 with
                | nil => simp [List.isEmpty] at hq
                | cons a b => simp)
          | cons k3 p3 =>
              simp only [deeperB, Bool.and_eq_true, decide_eq_true_eq] at h
              obtain ⟨hk, hrest⟩ := h
              subst hk
              exact Deeper.tail (ih q2 hrest)

/-- Executable compatibility check for a pair of statements. -/
def compatB (s t : Stmt) : Bool :=
  divergesB s.path t.path || (deeperB s.path t.path && s.isGuard)

theorem compatB_sound (s t : Stmt) (h : compatB s t = true) : CompatS s t := by
  simp only [compatB, Bool.or_eq_true, Bool.and_eq_true] at h
  rcases h with h | ⟨h1, h2⟩
  · exact Or.inl (divergesB_sound _ _ h)
  · exact Or.inr ⟨deeperB_sound _ _ h1, h2⟩

/-- Executable pairwise compatibility check over a statement sequence. -/
def pairwiseCompatB : List Stmt → Bool
  | [] => true
  | s :: rest => rest.all (fun t => compatB s t) && pairwiseCompatB rest

theorem pairwiseCompatB_sound :
    ∀ l, pairwiseCompatB l = true → List.Pairwise CompatS l := by
  intro l
  induction l with
  | nil => intro _; exact List.Pairwise.nil
  | cons s rest ih =>
      intro h
      simp only [pairwiseCompatB, Bool.and_eq_true, List.all_eq_true] at h
      exact List.Pairwise.cons (fun t ht => compatB_sound s t (h.1 t ht)) (ih h.2)

/-- The statement sequence of updateModelsInConfigFile, lines 810 to 814 of
src/loyal-openclaw-setup.js: ensure models, models.providers, and the provider
entry are objects, then assign the reconciled model list. -/
def updateModelsStmts (provider : String) (providerModels : Json) : List Stmt :=
  [⟨["models"], StmtOp.guard⟩,
   ⟨["models", "providers"], StmtOp.guard⟩,
   ⟨["models", "providers", provider], StmtOp.guard⟩,
   ⟨["models", "providers", provider, "models"], StmtOp.assign providerModels⟩]

/-- JavaScript or-else applied to a possibly-null string value. -/
def jsOrStr : Option String → String → String
  | none, d => d
  | some s, d => if s = "" then d else s

/-- The environment-variable indirection placeholder written when no API key
is stored inline, a dollar sign followed by the braced variable name. -/
def envPlaceholder (envVarName : String) : String :=
  "$" ++ "\x7b" ++ envVarName ++ "\x7d"

/-- The statement sequence of configureWithConfigFile, lines 760 to 777 of
src/loyal-openclaw-setup.js: ensure the provider entry exists, assign its
baseUrl, apiKey (or-else the environment placeholder), api kind and model
list, ensure the agents defaults exist, assign the primary model, add the
allowlist entry, and set the merge mode flag. -/
def configureStmts (provider modelId modelName baseUrl envVarName : String)
    (apiKey : Option String) : List Stmt :=
  [⟨["models"], StmtOp.guard⟩,
   ⟨["models", "providers"], StmtOp.guard⟩,
   ⟨["models", "providers", provider], StmtOp.guard⟩,
   ⟨["models", "providers", provider, "baseUrl"], StmtOp.assign (Json.str baseUrl)⟩,
   ⟨["models", "providers", provider, "apiKey"],
     StmtOp.assign (Json.str (jsOrStr apiKey (envPlaceholder envVarName)))⟩,
   ⟨["models", "providers", provider, "api"],
     StmtOp.assign (Json.str "openai-completions")⟩,
   ⟨["models", "providers", provider, "models"],
     StmtOp.assign (Json.arr [Json.obj [("id", Json.str modelId),
       ("name", Json.str modelName)]])⟩,
   ⟨["agents"], StmtOp.guard⟩,
   ⟨["agents", "defaults"], StmtOp.guard⟩,
   ⟨["agents", "defaults", "model"], StmtOp.guard⟩,
   ⟨["agents", "defaults", "model", "primary"],
     StmtOp.assign (Json.str (provider ++ "/" ++ modelId))⟩,
   ⟨["agents", "defaults", "models"], StmtOp.guard⟩,
   ⟨["agents", "defaults", "models", provider ++ "/" ++ modelId],
     StmtOp.assign (Json.obj [])⟩,
   ⟨["models", "mode"], StmtOp.assign (Json.str "merge")⟩]

theorem updateModelsStmts_pairwise (provider : String) (pm : Json) :
    List.Pairwise CompatS (updateModelsStmts provider pm) := by
  apply pairwiseCompatB_sound
  simp [updateModelsStmts, pairwiseCompatB, compatB, divergesB, deeperB,
    Stmt.isGuard]

theorem configureStmts_pairwise (provider modelId modelName baseUrl envVarName : String)
    (apiKey : Option String) :
    List.Pairwise CompatS
      (configureStmts provider modelId modelName baseUrl envVarName apiKey) := by
  apply pairwiseCompatB_sound
  simp [configureStmts, pairwiseCompatB, compatB, divergesB, deeperB,
    Stmt.isGuard]

/-- The on-disk state of a JSON config file: absent, present but not valid
JSON, or present with a parsed value. -/
inductive FileState where
  | absent : FileState
  | invalid : FileState
  | valid (j : Json) : FileState

/-- Result of fs.existsSync on the modelled config file. -/
def fileIsPresent : FileState → Bool
  | FileState.absent => false
  | _ => true

/-- readJsonFile, lines 603 to 611: null for a missing file and for content
that fails to parse, otherwise the parsed value. -/
def readJsonFile : FileState → Option Json
  | FileState.valid j => some j
  | _ => none

/-- JavaScript truthiness of a readJsonFile result; the null returned for a
missing or invalid file is falsy, and so is a parsed falsy value. -/
def truthyRead : Option Json → Bool
  | none => false
  | some j => truthy j

/-- Shared file-strategy body of configureWithConfigFile and
updateModelsInConfigFile: skip when the file exists but its read result is
falsy (in particular when it is invalid JSON), otherwise run the merge
statements on the parsed config, or-else the empty object, and write the
result back. Returns the final file state together with the value written;
none means nothing was written, either a skip or a thrown TypeError. -/
def applyStmtsToFile (stmts : List Stmt) (st : FileState) : FileState × Option Json :=
  let existing := readJsonFile st
  if !truthyRead existing && fileIsPresent st then (st, none)
  else
    let config := match existing with
      | some j => if truthy j then j else Json.obj []
      | none => Json.obj []
    match runStmts stmts config with
    | some c => (FileState.valid c, some c)
    | none => (st, none)

/-- updateModelsInConfigFile, lines 796 to 822, on the modelled file state. -/
def updateModelsInConfigFile (provider : String) (providerModels : Json)
    (st : FileState) : FileState × Option Json :=
  applyStmtsToFile (updateModelsStmts provider providerModels) st

/-- configureWithConfigFile, lines 739 to 794, on the modelled file state. -/
def configureWithConfigFile (provider modelId modelName baseUrl envVarName : String)
    (apiKey : Option String) (st : FileState) : FileState × Option Json :=
  applyStmtsToFile (configureStmts provider modelId modelName baseUrl envVarName apiKey) st

/-- Lower-case hexadecimal digit, for control-character escapes. -/
def hexDigit (n : Nat) : String :=
  String.singleton (if n < 10 then Char.ofNat (48 + n) else Char.ofNat (87 + n))

/-- JSON.stringify escaping of one character inside a string literal. -/
def escChar (ch : Char) : String :=
  if ch = '"' then "\\\""
  else if ch = '\\' then "\\\\"
  else if ch = '\n' then "\\n"
  else if ch = '\t' then "\\t"
  else if ch = '\r' then "\\r"
  else if ch = '\x08' then "\\b"
  else if ch = '\x0c' then "\\f"
  else if ch.toNat < 32 then "\\u00" ++ hexDigit (ch.toNat / 16) ++ hexDigit (ch.toNat % 16)
  else String.singleton ch

/-- A JSON string literal with its quotes. -/
def quoteJson (s : String) : String :=
  "\"" ++ String.join (s.toList.map escChar) ++ "\""

/-- Two spaces of indentation per nesting level, the third argument 2 passed
to JSON.stringify by the script. -/
def indentPad (d : Nat) : String := String.join (List.replicate d "  ")

mutual

/-- JSON.stringify(v, null, 2) of a value at nesting depth d; the written
config files are exactly this rendering of the final config value, so equal
values give byte-identical file content. -/
def stringifyAt : Nat → Json → String
  | _, Json.null => "null"
  | _, Json.bool true => "true"
  | _, Json.bool false => "false"
  | _, Json.num n => toString n
  | _, Json.str s => quoteJson s
  | _, Json.arr [] => "[]"
  | d, Json.arr (x :: xs) =>
      "[\n" ++ stringifyItems (d + 1) x xs ++ "\n" ++ indentPad d ++ "]"
  | _, Json.obj [] => "\x7b\x7d"
  | d, Json.obj (f :: fs) =>
      "\x7b\n" ++ stringifyFields (d + 1) f fs ++ "\n" ++ indentPad d ++ "\x7d"
termination_by d j => sizeOf j

/-- Comma-and-newline separated array items, each on its own indented line. -/
def stringifyItems : Nat → Json → List Json → String
  | d, x, [] => indentPad d ++ stringifyAt d x
  | d, x, y :: ys => indentPad d ++ stringifyAt d x ++ ",\n" ++ stringifyItems d y ys
termination_by d x xs => sizeOf x + sizeOf xs

/-- Comma-and-newline separated object fields, each on its own indented line. -/
def stringifyFields : Nat → String × Json → List (String × Json) → String
  | d, (k, v), [] => indentPad d ++ quoteJson k ++ ": " ++ stringifyAt d v
  | d, (k, v), g :: gs =>
      indentPad d ++ quoteJson k ++ ": " ++ stringifyAt d v ++ ",\n" ++
        stringifyFields d g gs
termination_by d kv gs => sizeOf kv + sizeOf gs

end

/-- The bytes JSON.stringify(v, null, 2) produces for a written config. -/
def stringify (j : Json) : String := stringifyAt 0 j

theorem runStmts_truthy (stmts : List Stmt) :
    ∀ c c2, runStmts stmts c = some c2 → truthy c = true → truthy c2 = true := by
  induction stmts with
  | nil =>
      intro c c2 h ht
      simp only [runStmts, Option.some.injEq] at h
      rw [← h]
      exact ht
  | cons s rest ih =>
      intro c c2 h ht
      simp only [runStmts] at h
      obtain ⟨c1, hc1, hrun⟩ := Option.bind_eq_some.mp h
      have ht1 : truthy c1 = true := by
        cases hp : s.path with
        | nil =>
            rw [hp] at hc1
            simp only [updatePath, Option.some.injEq] at hc1
            rw [← hc1]
            exact ht
        | cons a b =>
            rw [hp] at hc1
            exact truthy_of_update c (a :: b) s.fn c1 (by simp) hc1
      exact ih c1 c2 hrun ht1

theorem applyStmtsToFile_written (stmts : List Stmt) (st : FileState) (c1 : Json)
    (h : (applyStmtsToFile stmts st).2 = some c1) :
    (applyStmtsToFile stmts st).1 = FileState.valid c1 ∧
      ∃ cfg, truthy cfg = true ∧ runStmts stmts cfg = some c1 := by
  cases st with
  | invalid =>
      simp [applyStmtsToFile, readJsonFile, truthyRead, fileIsPresent] at h
  | absent =>
      simp only [applyStmtsToFile, readJsonFile, truthyRead, fileIsPresent,
        Bool.not_false, Bool.and_false, Bool.false_eq_true, if_false] at h ⊢
      cases hrun : runStmts stmts (Json.obj []) with
      | none =>
          rw [hrun] at h
          have h2 : (none : Option Json) = some c1 := h
          simp at h2
      | some c =>
          rw [hrun] at h
          have h2 : some c = some c1 := h
          have hc : c = c1 := Option.some.inj h2
          subst hc
          exact ⟨rfl, ⟨Json.obj [], by simp [truthy], hrun⟩⟩
  | valid j =>
      by_cases htr : truthy j = true
      · simp only [applyStmtsToFile, readJsonFile, truthyRead, fileIsPresent, htr,
          Bool.not_true, Bool.false_and, Bool.false_eq_true, if_false, if_true] at h ⊢
        cases hrun : runStmts stmts j with
        | none =>
            rw [hrun] at h
            have h2 : (none : Option Json) = some c1 := h
            simp at h2
        | some c =>
            rw [hrun] at h
            have h2 : some c = some c1 := h
            have hc : c = c1 := Option.some.inj h2
            subst hc
            exact ⟨rfl, ⟨j, htr, hrun⟩⟩
      · simp only [Bool.not_eq_true] at htr
        simp [applyStmtsToFile, readJsonFile, truthyRead, fileIsPresent, htr] at h

theorem applyStmtsToFile_idem (stmts : List Stmt)
    (hpw : List.Pairwise CompatS stmts) (st : FileState) (c1 : Json)
    (h : (applyStmtsToFile stmts st).2 = some c1) :
    applyStmtsToFile stmts (applyStmtsToFile stmts st).1
      = (FileState.valid c1, some c1) := by
  obtain ⟨hst, cfg, htr, hrun⟩ := applyStmtsToFile_written stmts st c1 h
  rw [hst]
  have htc1 : truthy c1 = true := runStmts_truthy stmts cfg c1 hrun htr
  have hidem : runStmts stmts c1 = some c1 := runStmts_idem stmts hpw cfg c1 hrun
  simp [applyStmtsToFile, readJsonFile, truthyRead, fileIsPresent, htc1, hidem]

theorem hasKey_of_getD_ne (fs : List (String × Json)) (k : String)
    (h : ¬getD fs k = Json.null) : hasKey fs k = true := by
  induction fs with
  | nil => simp [getD] at h
  | cons kv rest ih =>
      obtain ⟨k2, v2⟩ := kv
      by_cases h2 : k2 = k
      · simp [hasKey, h2]
      · simp only [getD, h2, if_false] at h
        simp [hasKey, h2, ih h]

theorem setKey_getD_obj (fs : List (String × Json)) (k : String)
    (sub : List (String × Json)) (h : getD fs k = Json.obj sub) :
    setKey fs k (Json.obj sub) = fs := by
  rw [← h]
  exact setKey_getD_self fs k (hasKey_of_getD_ne fs k (by rw [h]; simp))

theorem updatePath_guard_obj (gs : List (String × Json)) (k : String)
    (sub : List (String × Json)) (h : getD gs k = Json.obj sub) :
    updatePath (Json.obj gs) [k] orEmptyObj = some (Json.obj gs) := by
  simp only [updatePath, h, Option.some.injEq, Json.obj.injEq]
  have h2 : orEmptyObj (Json.obj sub) = Json.obj sub := by simp [orEmptyObj, truthy]
  rw [h2]
  exact setKey_getD_obj gs k sub h

theorem updatePath_step_obj (gs : List (String × Json)) (k : String)
    (sub : List (String × Json)) (r : String) (rs : List String) (f : Json → Json)
    (h : getD gs k = Json.obj sub) :
    updatePath (Json.obj gs) (k :: r :: rs) f
      = (updatePath (Json.obj sub) (r :: rs) f).map (fun c => Json.obj (setKey gs k c)) := by
  simp [updatePath, h, isNull]

theorem updatePath_head_set (gs : List (String × Json)) (k : String)
    (rest : List String) (f : Json → Json) (c : Json)
    (h : updatePath (Json.obj gs) (k :: rest) f = some c) :
    ∃ z, c = Json.obj (setKey gs k z) := by
  cases rest with
  | nil =>
      simp only [updatePath, Option.some.injEq] at h
      exact ⟨_, h.symm⟩
  | cons r rs =>
      simp only [updatePath] at h
      split at h
      · simp at h
      · obtain ⟨c2, _, hc⟩ := Option.map_eq_some'.mp h
        exact ⟨c2, hc.symm⟩

theorem runStmts_updateModels_top (provider : String) (pm : Json)
    (fs : List (String × Json)) (c : Json)
    (h : runStmts (updateModelsStmts provider pm) (Json.obj fs) = some c) :
    ∃ z, c = Json.obj (setKey fs "models" z) := by
  simp only [updateModelsStmts, runStmts] at h
  obtain ⟨c1, hc1, h⟩ := Option.bind_eq_some.mp h
  obtain ⟨c2, hc2, h⟩ := Option.bind_eq_some.mp h
  obtain ⟨c3, hc3, h⟩ := Option.bind_eq_some.mp h
  obtain ⟨c4, hc4, h⟩ := Option.bind_eq_some.mp h
  simp only [Option.some.injEq] at h
  subst h
  obtain ⟨z1, hz1⟩ := updatePath_head_set fs "models" [] _ c1 hc1
  subst hz1
  obtain ⟨z2, hz2⟩ := updatePath_head_set _ "models" _ _ c2 hc2
  rw [setKey_setKey_self] at hz2
  subst hz2
  obtain ⟨z3, hz3⟩ := updatePath_head_set _ "models" _ _ c3 hc3
  rw [setKey_setKey_self] at hz3
  subst hz3
  obtain ⟨z4, hz4⟩ := updatePath_head_set _ "models" _ _ c4 hc4
  rw [setKey_setKey_self] at hz4
  exact ⟨z4, hz4⟩

theorem runStmts_updateModels_compute (provider : String) (pm : Json)
    (fs ms ps es : List (String × Json))
    (hm : getD fs "models" = Json.obj ms)
    (hpv : getD ms "providers" = Json.obj ps)
    (he : getD ps provider = Json.obj es) :
    runStmts (updateModelsStmts provider pm) (Json.obj fs)
      = some (Json.obj (setKey fs "models" (Json.obj (setKey ms "providers"
          (Json.obj (setKey ps provider (Json.obj (setKey es "models" pm)))))))) := by
  have h1 : updatePath (Json.obj fs) ["models"] orEmptyObj = some (Json.obj fs) :=
    updatePath_guard_obj fs "models" ms hm
  have h2 : updatePath (Json.obj fs) ["models", "providers"] orEmptyObj
      = some (Json.obj fs) := by
    rw [updatePath_step_obj fs "models" ms "providers" [] orEmptyObj hm,
      updatePath_guard_obj ms "providers" ps hpv]
    simp [setKey_getD_obj fs "models" ms hm]
  have h3 : updatePath (Json.obj fs) ["models", "providers", provider] orEmptyObj
      = some (Json.obj fs) := by
    rw [updatePath_step_obj fs "models" ms "providers" [provider] orEmptyObj hm,
      updatePath_step_obj ms "providers" ps provider [] orEmptyObj hpv,
      updatePath_guard_obj ps provider es he]
    simp [setKey_getD_obj ms "providers" ps hpv, setKey_getD_obj fs "models" ms hm]
  have h4 : updatePath (Json.obj fs) ["models", "providers", provider, "models"]
      (fun _ => pm)
      = some (Json.obj (setKey fs "models" (Json.obj (setKey ms "providers"
          (Json.obj (setKey ps provider (Json.obj (setKey es "models" pm)))))))) := by
    rw [updatePath_step_obj fs "models" ms "providers" [provider, "models"]
        (fun _ => pm) hm,
      updatePath_step_obj ms "providers" ps provider ["models"] (fun _ => pm) hpv,
      updatePath_step_obj ps provider es "models" [] (fun _ => pm) he]
    simp [updatePath]
  simp only [updateModelsStmts, runStmts, Stmt.fn]
  rw [h1]
  simp only [Option.some_bind]
  rw [h2]
  simp only [Option.some_bind]
  rw [h3]
  simp only [Option.some_bind]
  rw [h4]
  simp only [Option.some_bind, runStmts]

/-- Option-valued read of a top-level field of the config file: some of the
field value when the file holds a JSON object, none otherwise. -/
def topField (st : FileState) (k : String) : Option Json :=
  match readJsonFile st with
  | some (Json.obj fs) => some (getD fs k)
  | _ => none

/-- Option-valued presence test of a top-level key of the config file. -/
def topHas (st : FileState) (k : String) : Option Bool :=
  match readJsonFile st with
  | some (Json.obj fs) => some (hasKey fs k)
  | _ => none

/-- C2: the file-strategy config merge is idempotent.  Whenever a first
application of updateModelsInConfigFile, or of configureWithConfigFile with
identical inputs, writes a config value, applying the same update again to
the file it produced writes exactly the same value, so the JSON.stringify
rendering of the second write is byte-identical to that of the first. -/
theorem C2_config_merge_idempotent
    (provider modelId modelName baseUrl envVarName : String) (apiKey : Option String)
    (providerModels : Json) (st st2 : FileState) (c1 c2 : Json)
    (h1 : (updateModelsInConfigFile provider providerModels st).2 = some c1)
    (h2 : (configureWithConfigFile provider modelId modelName baseUrl envVarName
        apiKey st2).2 = some c2) :
    (updateModelsInConfigFile provider providerModels
        (updateModelsInConfigFile provider providerModels st).1
      = (FileState.valid c1, some c1) ∧
     Option.map stringify (updateModelsInConfigFile provider providerModels
        (updateModelsInConfigFile provider providerModels st).1).2
      = Option.map stringify (updateModelsInConfigFile provider providerModels st).2) ∧
    (configureWithConfigFile provider modelId modelName baseUrl envVarName apiKey
        (configureWithConfigFile provider modelId modelName baseUrl envVarName apiKey st2).1
      = (FileState.valid c2, some c2) ∧
     Option.map stringify (configureWithConfigFile provider modelId modelName baseUrl
        envVarName apiKey
        (configureWithConfigFile provider modelId modelName baseUrl envVarName apiKey st2).1).2
      = Option.map stringify (configureWithConfigFile provider modelId modelName baseUrl
        envVarName apiKey st2).2) := by
  have ha : updateModelsInConfigFile provider providerModels
      (updateModelsInConfigFile provider providerModels st).1
      = (FileState.valid c1, some c1) :=
    applyStmtsToFile_idem (updateModelsStmts provider providerModels)
      (updateModelsStmts_pairwise provider providerModels) st c1 h1
  have hb : configureWithConfigFile provider modelId modelName baseUrl envVarName apiKey
      (configureWithConfigFile provider modelId modelName baseUrl envVarName apiKey st2).1
      = (FileState.valid c2, some c2) :=
    applyStmtsToFile_idem (configureStmts provider modelId modelName baseUrl envVarName apiKey)
      (configureStmts_pairwise provider modelId modelName baseUrl envVarName apiKey) st2 c2 h2
  refine ⟨⟨ha, ?_⟩, ⟨hb, ?_⟩⟩
  · rw [ha, h1]
  · rw [hb, h2]

/-- C4: with the file strategy in models-only update mode, on a config file
holding a JSON object, updateModelsInConfigFile only touches the
models.providers.provider.models field: every other top-level key keeps its
presence and value, and when the provider entry is an object, the written
provider entry is the old entry with only its models field replaced, all its
other fields keeping presence and value. -/
theorem C4_update_models_frame (provider : String) (pm : Json)
    (fs : List (String × Json)) :
    (∀ k, k ≠ "models" →
      topField (updateModelsInConfigFile provider pm (FileState.valid (Json.obj fs))).1 k
          = some (getD fs k) ∧
      topHas (updateModelsInConfigFile provider pm (FileState.valid (Json.obj fs))).1 k
          = some (hasKey fs k)) ∧
    (∀ ms ps es, getD fs "models" = Json.obj ms → getD ms "providers" = Json.obj ps →
      getD ps provider = Json.obj es →
      updateModelsInConfigFile provider pm (FileState.valid (Json.obj fs))
        = (FileState.valid (Json.obj (setKey fs "models" (Json.obj (setKey ms "providers"
            (Json.obj (setKey ps provider (Json.obj (setKey es "models" pm)))))))),
           some (Json.obj (setKey fs "models" (Json.obj (setKey ms "providers"
            (Json.obj (setKey ps provider (Json.obj (setKey es "models" pm))))))))) ∧
      (∀ f2, f2 ≠ "models" →
        getD (setKey es "models" pm) f2 = getD es f2 ∧
        hasKey (setKey es "models" pm) f2 = hasKey es f2) ∧
      getD (setKey es "models" pm) "models" = pm) := by
  constructor
  · intro k hk
    have hne : "models" ≠ k := fun hh => hk hh.symm
    unfold updateModelsInConfigFile
    simp only [applyStmtsToFile, readJsonFile, truthyRead, fileIsPresent, truthy,
      Bool.not_true, Bool.false_and, Bool.false_eq_true, if_false, if_true]
    cases hrun : runStmts (updateModelsStmts provider pm) (Json.obj fs) with
    | none => simp [topField, topHas, readJsonFile]
    | some c =>
        obtain ⟨z, hz⟩ := runStmts_updateModels_top provider pm fs c hrun
        subst hz
        simp [topField, topHas, readJsonFile, getD_setKey_ne fs "models" k z hne,
          hasKey_setKey_ne fs "models" k z hne]
  · intro ms ps es hm hpv he
    have hrun := runStmts_updateModels_compute provider pm fs ms ps es hm hpv he
    refine ⟨?_, ?_, getD_setKey_self es "models" pm⟩
    · unfold updateModelsInConfigFile
      simp only [applyStmtsToFile, readJsonFile, truthyRead, fileIsPresent, truthy,
        Bool.not_true, Bool.false_and, Bool.false_eq_true, if_false, if_true]
      rw [hrun]
    · intro f2 hf2
      have hne : "models" ≠ f2 := fun hh => hf2 hh.symm
      exact ⟨getD_setKey_ne es "models" f2 pm hne, hasKey_setKey_ne es "models" f2 pm hne⟩

/-- C5: a config file that exists but does not parse as JSON is skipped by
both file-strategy operations, its state unchanged and nothing written, while
an absent config file is processed exactly as the empty object config. -/
theorem C5_invalid_json_skip
    (provider modelId modelName baseUrl envVarName : String) (apiKey : Option String)
    (providerModels : Json) :
    updateModelsInConfigFile provider providerModels FileState.invalid
        = (FileState.invalid, none) ∧
    configureWithConfigFile provider modelId modelName baseUrl envVarName apiKey
        FileState.invalid = (FileState.invalid, none) ∧
    (updateModelsInConfigFile provider providerModels FileState.absent).2
        = runStmts (updateModelsStmts provider providerModels) (Json.obj []) ∧
    (configureWithConfigFile provider modelId modelName baseUrl envVarName apiKey
        FileState.absent).2
        = runStmts (configureStmts provider modelId modelName baseUrl envVarName apiKey)
            (Json.obj []) := by
  refine ⟨rfl, rfl, ?_, ?_⟩
  · show (match runStmts (updateModelsStmts provider providerModels) (Json.obj []) with
      | some c => (FileState.valid c, some c)
      | none => (FileState.absent, (none : Option Json))).2
        = runStmts (updateModelsStmts provider providerModels) (Json.obj [])
    cases runStmts (updateModelsStmts provider providerModels) (Json.obj []) <;> rfl
  · show (match runStmts (configureStmts provider modelId modelName baseUrl envVarName
        apiKey) (Json.obj []) with
      | some c => (FileState.valid c, some c)
      | none => (FileState.absent, (none : Option Json))).2
        = runStmts (configureStmts provider modelId modelName baseUrl envVarName apiKey)
            (Json.obj [])
    cases runStmts (configureStmts provider modelId modelName baseUrl envVarName apiKey)
      (Json.obj []) <;> rfl


theorem C2_config_merge_idempotent_witness :
    updateModelsInConfigFile "Loyal" (Json.arr [])
        (updateModelsInConfigFile "Loyal" (Json.arr []) FileState.absent).1
      = (FileState.valid (Json.obj [("models", Json.obj [("providers",
            Json.obj [("Loyal", Json.obj [("models", Json.arr [])])])])]),
         some (Json.obj [("models", Json.obj [("providers",
            Json.obj [("Loyal", Json.obj [("models", Json.arr [])])])])])) ∧
    configureWithConfigFile "Loyal" "m" "M" "u" "E" none
        (configureWithConfigFile "Loyal" "m" "M" "u" "E" none FileState.absent).1
      = (FileState.valid (Json.obj [("models", Json.obj [("providers", Json.obj [("Loyal",
            Json.obj [("baseUrl", Json.str "u"), ("apiKey", Json.str (envPlaceholder "E")),
              ("api", Json.str "openai-completions"),
              ("models", Json.arr [Json.obj [("id", Json.str "m"),
                ("name", Json.str "M")]])])]), ("mode", Json.str "merge")]),
          ("agents", Json.obj [("defaults", Json.obj [("model",
            Json.obj [("primary", Json.str "Loyal/m")]),
            ("models", Json.obj [("Loyal/m", Json.obj [])])])])]),
         some (Json.obj [("models", Json.obj [("providers", Json.obj [("Loyal",
            Json.obj [("baseUrl", Json.str "u"), ("apiKey", Json.str (envPlaceholder "E")),
              ("api", Json.str "openai-completions"),
              ("models", Json.arr [Json.obj [("id", Json.str "m"),
                ("name", Json.str "M")]])])]), ("mode", Json.str "merge")]),
          ("agents", Json.obj [("defaults", Json.obj [("model",
            Json.obj [("primary", Json.str "Loyal/m")]),
            ("models", Json.obj [("Loyal/m", Json.obj [])])])])])) :=
  ⟨(C2_config_merge_idempotent "Loyal" "m" "M" "u" "E" none (Json.arr [])
      FileState.absent FileState.absent _ _ rfl rfl).1.1,
   (C2_config_merge_idempotent "Loyal" "m" "M" "u" "E" none (Json.arr [])
      FileState.absent FileState.absent _ _ rfl rfl).2.1⟩

theorem C4_update_models_frame_witness :
    topField (updateModelsInConfigFile "Loyal"
        (Json.arr [Json.obj [("id", Json.str "m"), ("name", Json.str "m")]])
        (FileState.valid (Json.obj [("unrelated", Json.num 1),
          ("models", Json.obj [("providers", Json.obj [("Loyal",
            Json.obj [("baseUrl", Json.str "u"),
              ("models", Json.arr [])])])])]))).1 "unrelated"
      = some (Json.num 1) ∧
    getD (setKey [("baseUrl", Json.str "u"), ("models", Json.arr [])] "models"
        (Json.arr [Json.obj [("id", Json.str "m"), ("name", Json.str "m")]])) "baseUrl"
      = Json.str "u" := by
  constructor
  · exact ((C4_update_models_frame "Loyal"
      (Json.arr [Json.obj [("id", Json.str "m"), ("name", Json.str "m")]])
      [("unrelated", Json.num 1),
        ("models", Json.obj [("providers", Json.obj [("Loyal",
          Json.obj [("baseUrl", Json.str "u"), ("models", Json.arr [])])])])]).1
      "unrelated" (by decide)).1
  · exact (((C4_update_models_frame "Loyal"
      (Json.arr [Json.obj [("id", Json.str "m"), ("name", Json.str "m")]])
      [("unrelated", Json.num 1),
        ("models", Json.obj [("providers", Json.obj [("Loyal",
          Json.obj [("baseUrl", Json.str "u"), ("models", Json.arr [])])])])]).2
      [("providers", Json.obj [("Loyal", Json.obj [("baseUrl", Json.str "u"),
        ("models", Json.arr [])])])]
      [("Loyal", Json.obj [("baseUrl", Json.str "u"), ("models", Json.arr [])])]
      [("baseUrl", Json.str "u"), ("models", Json.arr [])]
      rfl rfl rfl).2.1 "baseUrl" (by decide)).1


/-- A raw model descriptor as produced by normalizeModelList: an id together
with an optional display name, none standing for an absent field. -/
structure ModelDescriptor where
  id : String
  name : Option String
deriving DecidableEq

/-- A provider model entry as written into the OpenClaw provider config. -/
structure ProviderModel where
  id : String
  name : String
deriving DecidableEq

/-- The map step of buildProviderModels, lines 442 to 445 of the source: keep
the id and take the name or-else the id. -/
def toProviderModel (m : ModelDescriptor) : ProviderModel :=
  { id := m.id, name := jsOrStr m.name m.id }

/-- The filter step of buildProviderModels, lines 446 to 450: drop entries
with a falsy id or an id already seen, recording each kept id as seen. -/
def dedupKeep : List ProviderModel → List String → List ProviderModel
  | [], _ => []
  | m :: rest, seen =>
      if m.id = "" ∨ m.id ∈ seen then dedupKeep rest seen
      else m :: dedupKeep rest (m.id :: seen)

/-- buildProviderModels, lines 439 to 451 of src/loyal-openclaw-setup.js. -/
def buildProviderModels (models : List ModelDescriptor) : List ProviderModel :=
  dedupKeep (models.map toProviderModel) []

theorem dedupKeep_id_notin :
    ∀ (l : List ProviderModel) (seen : List String) (m : ProviderModel),
      m ∈ dedupKeep l seen → ¬m.id ∈ seen ∧ m.id ≠ "" := by
  intro l
  induction l with
  | nil => intro seen m h; simp [dedupKeep] at h
  | cons m2 rest ih =>
      intro seen m h
      by_cases hc : m2.id = "" ∨ m2.id ∈ seen
      · rw [dedupKeep, if_pos hc] at h
        exact ih seen m h
      · rw [dedupKeep, if_neg hc] at h
        push_neg at hc
        rcases List.mem_cons.mp h with hm | hm
        · subst hm
          exact ⟨hc.2, hc.1⟩
        · have h2 := ih (m2.id :: seen) m hm
          refine ⟨fun hin => h2.1 (List.mem_cons_of_mem _ hin), h2.2⟩

theorem dedupKeep_nodup :
    ∀ (l : List ProviderModel) (seen : List String),
      ((dedupKeep l seen).map (fun m => m.id)).Nodup := by
  intro l
  induction l with
  | nil => intro seen; simp [dedupKeep]
  | cons m2 rest ih =>
      intro seen
      by_cases hc : m2.id = "" ∨ m2.id ∈ seen
      · rw [dedupKeep, if_pos hc]
        exact ih seen
      · rw [dedupKeep, if_neg hc]
        simp only [List.map_cons, List.nodup_cons]
        refine ⟨fun hin => ?_, ih (m2.id :: seen)⟩
        obtain ⟨m, hm, hid⟩ := List.mem_map.mp hin
        have h2 := dedupKeep_id_notin rest (m2.id :: seen) m hm
        rw [hid] at h2
        exact h2.1 (List.mem_cons_self _ _)

theorem dedupKeep_sublist :
    ∀ (l : List ProviderModel) (seen : List String), (dedupKeep l seen).Sublist l := by
  intro l
  induction l with
  | nil => intro seen; simp [dedupKeep]
  | cons m2 rest ih =>
      intro seen
      by_cases hc : m2.id = "" ∨ m2.id ∈ seen
      · rw [dedupKeep, if_pos hc]
        exact List.Sublist.cons m2 (ih seen)
      · rw [dedupKeep, if_neg hc]
        exact List.Sublist.cons₂ m2 (ih (m2.id :: seen))

theorem dedupKeep_first_occurrence :
    ∀ (l : List ProviderModel) (seen : List String) (m : ProviderModel),
      m ∈ dedupKeep l seen →
      l.find? (fun x => x.id == m.id) = some m := by
  intro l
  induction l with
  | nil => intro seen m h; simp [dedupKeep] at h
  | cons m2 rest ih =>
      intro seen m h
      by_cases hc : m2.id = "" ∨ m2.id ∈ seen
      · rw [dedupKeep, if_pos hc] at h
        have h2 := dedupKeep_id_notin rest seen m h
        have hne : m2.id ≠ m.id := by
          intro heq
          rcases hc with hc | hc
          · exact h2.2 (by rw [← heq, hc])
          · exact h2.1 (heq ▸ hc)
        rw [List.find?_cons_of_neg _ (by simp [hne]), ih seen m h]
      · rw [dedupKeep, if_neg hc] at h
        rcases List.mem_cons.mp h with hm | hm
        · subst hm
          rw [List.find?_cons_of_pos _ (by simp)]
        · have h2 := dedupKeep_id_notin rest (m2.id :: seen) m hm
          have hne : m2.id ≠ m.id := by
            intro heq
            exact h2.1 (heq ▸ List.mem_cons_self _ _)
          rw [List.find?_cons_of_neg _ (by simp [hne]), ih (m2.id :: seen) m hm]

/-- C3: buildProviderModels de-duplicates the model list by id with the first
occurrence winning: output ids are pairwise distinct, the output is an
order-preserving sublist of the mapped input, every kept entry equals the
first input entry carrying its id, and on the input a, b, a-renamed the
result is exactly the entries a and b derived from the first occurrences. -/
theorem C3_build_provider_models_dedup (models : List ModelDescriptor) :
    ((buildProviderModels models).map (fun m => m.id)).Nodup ∧
    (buildProviderModels models).Sublist (models.map toProviderModel) ∧
    (∀ m, m ∈ buildProviderModels models →
      (models.map toProviderModel).find? (fun x => x.id == m.id) = some m) ∧
    buildProviderModels [⟨"a", none⟩, ⟨"b", none⟩, ⟨"a", some "A2"⟩]
      = [⟨"a", "a"⟩, ⟨"b", "b"⟩] := by
  refine ⟨dedupKeep_nodup _ [], dedupKeep_sublist _ [], ?_, by decide⟩
  intro m hm
  exact dedupKeep_first_occurrence (models.map toProviderModel) [] m hm

theorem C3_build_provider_models_dedup_witness :
    ([⟨"a", none⟩, ⟨"b", none⟩, ⟨"a", some "A2"⟩].map toProviderModel).find?
        (fun x => x.id == "a") = some ⟨"a", "a"⟩ :=
  (C3_build_provider_models_dedup [⟨"a", none⟩, ⟨"b", none⟩, ⟨"a", some "A2"⟩]).2.2.1
    ⟨"a", "a"⟩ (by decide)


/-- String.prototype.startsWith, computed on the character lists. -/
def jsStartsWith (s pre : String) : Bool := pre.toList.isPrefixOf s.toList

/-- The replace of the trailing-slash regular expression in buildEndpoint:
drops every trailing solidus character of the pathname. -/
def stripTrailingSlashes (s : String) : String :=
  String.mk ((s.toList.reverse.dropWhile (fun ch => ch = '/')).reverse)

/-- The origin and pathname of the WHATWG-parsed server URL; for an http or
https URL the parser guarantees the pathname begins with a solidus. -/
structure UrlParts where
  origin : String
  pathname : String

/-- buildEndpoint, lines 549 to 556: the signed path is the base path, empty
when the pathname is the root, concatenated with the solidus-prefixed
endpoint path, or-else the root path when that concatenation is empty; the
request url resolves the signed path against the origin. -/
def buildEndpoint (base : UrlParts) (endpointPath : String) : String × String :=
  let basePath := if base.pathname = "/" then "" else stripTrailingSlashes base.pathname
  let endpoint := if jsStartsWith endpointPath "/" then endpointPath
    else "/" ++ endpointPath
  let signedPath := if basePath ++ endpoint = "" then "/" else basePath ++ endpoint
  (base.origin ++ signedPath, signedPath)

/-- The outgoing request assembled by signedJsonRequest: target url, HTTP
method and Authorization header. -/
structure SignedRequest where
  url : String
  method : String
  authHeader : String

/-- signMessage, lines 521 to 524, abstracted over the signing primitive:
crypto.sign with a null algorithm applies Ed25519 with its built-in hashing
directly to the UTF-8 bytes of the message and the result is base64 encoded;
the sign parameter stands for that whole deterministic pipeline. -/
def signMessage (sign : String → String) (message : String) : String := sign message

/-- signedJsonRequest, lines 526 to 547: build the endpoint, form the
canonical message timestamp colon method colon signedPath, sign it, and
attach the Signature authorization header. -/
def signedJsonRequest (sign : String → String) (base : UrlParts)
    (publicKeyBase64 method endpointPath : String) (timestampMillis : Nat) :
    SignedRequest :=
  let pr := buildEndpoint base endpointPath
  let timestamp := toString timestampMillis
  let message := timestamp ++ ":" ++ method ++ ":" ++ pr.2
  let signature := signMessage sign message
  { url := pr.1, method := method,
    authHeader := "Signature " ++ publicKeyBase64 ++ ":" ++ timestamp ++ ":" ++ signature }

theorem slash_toList : "/".toList = ['/'] := rfl

theorem toList_append_str (a b : String) : (a ++ b).toList = a.toList ++ b.toList :=
  String.data_append a b

theorem jsStartsWith_slash_iff (s : String) :
    jsStartsWith s "/" = true ↔ ∃ t, s.toList = '/' :: t := by
  unfold jsStartsWith
  rw [slash_toList]
  cases hs : s.toList with
  | nil => simp [List.isPrefixOf]
  | cons c t =>
      simp only [List.isPrefixOf, Bool.and_eq_true, beq_iff_eq, List.cons.injEq]
      constructor
      · intro h
        exact ⟨t, h.1.symm, rfl⟩
      · rintro ⟨t2, hc, ht⟩
        exact ⟨hc.symm, by simp [List.isPrefixOf]⟩

theorem jsStartsWith_slash_append (s : String) :
    jsStartsWith ("/" ++ s) "/" = true := by
  rw [jsStartsWith_slash_iff]
  exact ⟨s.toList, by rw [toList_append_str, slash_toList]; rfl⟩

theorem jsStartsWith_append_left (a b : String) (h : jsStartsWith a "/" = true) :
    jsStartsWith (a ++ b) "/" = true := by
  rw [jsStartsWith_slash_iff] at h ⊢
  obtain ⟨t, ht⟩ := h
  exact ⟨t ++ b.toList, by rw [toList_append_str, ht]; rfl⟩

theorem str_empty_append (s : String) : "" ++ s = s :=
  String.ext (by rw [String.data_append]; rfl)

theorem stripTrailingSlashes_prefix (s : String) :
    (stripTrailingSlashes s).toList <+: s.toList := by
  have h1 : s.toList.reverse.dropWhile (fun ch => ch = '/') <:+ s.toList.reverse :=
    List.dropWhile_suffix _
  have h2 := List.reverse_prefix.mpr h1
  rw [List.reverse_reverse] at h2
  exact h2

theorem stripTrailingSlashes_slash (s : String) (h : jsStartsWith s "/" = true) :
    stripTrailingSlashes s = "" ∨ jsStartsWith (stripTrailingSlashes s) "/" = true := by
  obtain ⟨t, ht⟩ := (jsStartsWith_slash_iff s).mp h
  cases hr : (stripTrailingSlashes s).toList with
  | nil =>
      left
      exact String.ext hr
  | cons c t2 =>
      right
      have hpre := stripTrailingSlashes_prefix s
      rw [hr, ht] at hpre
      obtain ⟨r, hr2⟩ := hpre
      have hc : c = '/' := by
        have h3 := congrArg (fun l => l.head?) hr2
        simpa using h3
      rw [jsStartsWith_slash_iff]
      exact ⟨t2, by rw [hr, hc]⟩

theorem append_ne_empty_of_startsWith (a b : String)
    (h : jsStartsWith b "/" = true) : a ++ b ≠ "" := by
  obtain ⟨t, ht⟩ := (jsStartsWith_slash_iff b).mp h
  intro he
  have h2 : (a ++ b).toList = [] := by rw [he]; rfl
  rw [toList_append_str, ht] at h2
  exact absurd (List.append_eq_nil.mp h2).2 (by simp)

/-- C1: for every server URL accepted by the URL parser, signedJsonRequest
signs the canonical message, timestamp colon method colon signedPath, with
the abstracted Ed25519 primitive and sends the Authorization header exactly
as Signature publicKey colon timestamp colon signature, where the signed path
is the base path, empty for a root pathname, concatenated with the endpoint
path, and always begins with a solidus. -/
theorem C1_signed_request_canonical (sign : String → String) (base : UrlParts)
    (publicKeyBase64 method endpointPath : String) (timestampMillis : Nat)
    (hbase : jsStartsWith base.pathname "/" = true) :
    (signedJsonRequest sign base publicKeyBase64 method endpointPath
        timestampMillis).authHeader
      = "Signature " ++ publicKeyBase64 ++ ":" ++ toString timestampMillis ++ ":" ++
        sign (toString timestampMillis ++ ":" ++ method ++ ":" ++
          (buildEndpoint base endpointPath).2) ∧
    (buildEndpoint base endpointPath).2
      = (if base.pathname = "/" then "" else stripTrailingSlashes base.pathname) ++
        (if jsStartsWith endpointPath "/" then endpointPath else "/" ++ endpointPath) ∧
    jsStartsWith (buildEndpoint base endpointPath).2 "/" = true ∧
    (signedJsonRequest sign base publicKeyBase64 method endpointPath
        timestampMillis).method = method := by
  have hep : jsStartsWith (if jsStartsWith endpointPath "/" then endpointPath
      else "/" ++ endpointPath) "/" = true := by
    split
    · assumption
    · exact jsStartsWith_slash_append endpointPath
  have hne : (if base.pathname = "/" then "" else stripTrailingSlashes base.pathname) ++
      (if jsStartsWith endpointPath "/" then endpointPath
        else "/" ++ endpointPath) ≠ "" :=
    append_ne_empty_of_startsWith _ _ hep
  have hsp : (buildEndpoint base endpointPath).2
      = (if base.pathname = "/" then "" else stripTrailingSlashes base.pathname) ++
        (if jsStartsWith endpointPath "/" then endpointPath
          else "/" ++ endpointPath) := by
    simp only [buildEndpoint, hne, if_false, if_neg hne]
  refine ⟨?_, hsp, ?_, rfl⟩
  · simp only [signedJsonRequest, signMessage]
  · rw [hsp]
    by_cases hroot : base.pathname = "/"
    · rw [if_pos hroot, str_empty_append]
      exact hep
    · rw [if_neg hroot]
      rcases stripTrailingSlashes_slash base.pathname hbase with hz | hz
      · rw [hz, str_empty_append]
        exact hep
      · exact jsStartsWith_append_left _ _ hz

theorem C1_signed_request_canonical_witness :
    jsStartsWith (buildEndpoint ⟨"http://h", "/"⟩ "/v1/models").2 "/" = true :=
  (C1_signed_request_canonical (fun m => m) ⟨"http://h", "/"⟩ "PK" "GET"
    "/v1/models" 5 (by decide)).2.2.1


/-- The on-disk key files of the identity store: the private key PEM text and
the public key base64 text, none when the file is absent. -/
structure KeyFiles where
  privFile : Option String
  pubFile : Option String
deriving DecidableEq

/-- loadOrCreateKeys, lines 453 to 471, abstracted over the Node crypto API:
parsePriv models crypto.createPrivateKey, returning none when it throws on a
malformed PEM; derivePub models createPublicKey followed by the SPKI export
and the base64 encoding of the raw 32 bytes; freshKey, freshPem and freshPub
model the generateKeys result used only on the missing-file path. Returns
the resulting key files together with the outcome; a thrown parse error
leaves both files exactly as they were. -/
def loadOrCreateKeys {PrivKey : Type} (parsePriv : String → Option PrivKey)
    (derivePub : PrivKey → String) (freshKey : PrivKey) (freshPem freshPub : String)
    (st : KeyFiles) : KeyFiles × Except String (PrivKey × String) :=
  match st.privFile with
  | none =>
      ({ privFile := some freshPem, pubFile := some freshPub },
        Except.ok (freshKey, freshPub))
  | some pem =>
      match parsePriv pem with
      | none => (st, Except.error "Failed to parse private key")
      | some key =>
          let pubB64 := derivePub key
          match st.pubFile with
          | none => ({ st with pubFile := some pubB64 }, Except.ok (key, pubB64))
          | some _ => (st, Except.ok (key, pubB64))

/-- The catch block of main, lines 127 to 134: a thrown setup error prints
the message and sets a nonzero process exit code, otherwise the process ends
with zero. -/
def mainExitCode {A : Type} (outcome : Except String A) : Nat :=
  match outcome with
  | Except.error _ => 1
  | Except.ok _ => 0

/-- C6: when the private key file exists but holds a malformed key,
loadOrCreateKeys throws instead of regenerating: the key files are returned
unchanged, the outcome is an error, and main maps it to exit status one. -/
theorem C6_malformed_key_fatal {PrivKey : Type} (parsePriv : String → Option PrivKey)
    (derivePub : PrivKey → String) (freshKey : PrivKey) (freshPem freshPub : String)
    (st : KeyFiles) (pem : String)
    (hpriv : st.privFile = some pem) (hbad : parsePriv pem = none) :
    (loadOrCreateKeys parsePriv derivePub freshKey freshPem freshPub st).1 = st ∧
    (∃ e, (loadOrCreateKeys parsePriv derivePub freshKey freshPem freshPub st).2
        = Except.error e) ∧
    mainExitCode (loadOrCreateKeys parsePriv derivePub freshKey freshPem freshPub st).2
      = 1 := by
  simp [loadOrCreateKeys, hpriv, hbad, mainExitCode]

theorem C6_malformed_key_fatal_witness :
    (loadOrCreateKeys (fun _ => (none : Option Unit)) (fun _ => "") () "p" "q"
        ⟨some "bad", some "pub"⟩).1 = ⟨some "bad", some "pub"⟩ ∧
    mainExitCode (loadOrCreateKeys (fun _ => (none : Option Unit)) (fun _ => "") () "p" "q"
        ⟨some "bad", some "pub"⟩).2 = 1 :=
  ⟨(C6_malformed_key_fatal (fun _ => (none : Option Unit)) (fun _ => "") () "p" "q"
      ⟨some "bad", some "pub"⟩ "bad" rfl rfl).1,
   (C6_malformed_key_fatal (fun _ => (none : Option Unit)) (fun _ => "") () "p" "q"
      ⟨some "bad", some "pub"⟩ "bad" rfl rfl).2.2⟩

/-- Own enumerable entries of a JSON value for object spread: object fields
themselves; arrays and strings spread their index keys; other primitives
contribute nothing. -/
def spreadEntries : Json → List (String × Json)
  | Json.obj fs => fs
  | Json.arr xs =>
      ((List.range xs.length).zip xs).map (fun iv => (toString iv.1, iv.2))
  | Json.str s2 =>
      ((List.range s2.toList.length).zip s2.toList).map
        (fun iv => (toString iv.1, Json.str (String.singleton iv.2)))
  | _ => []

/-- saveLocalConfig, lines 595 to 601: read the current config, or-else the
empty object, and write the object spread of the current entries followed by
the update entries; an update key overwrites its slot in place, a new key is
appended. -/
def saveLocalConfig (st : Option Json) (update : List (String × Json)) : Json :=
  let current := match st with
    | some j => if truthy j then j else Json.obj []
    | none => Json.obj []
  Json.obj ((spreadEntries current ++ update).foldl
    (fun acc kv => setKey acc kv.1 kv.2) [])

theorem setKey_append_of_not_has (acc : List (String × Json)) (k : String) (v : Json)
    (h : hasKey acc k = false) : setKey acc k v = acc ++ [(k, v)] := by
  induction acc with
  | nil => simp [setKey]
  | cons kv rest ih =>
      obtain ⟨k2, v2⟩ := kv
      simp only [hasKey, Bool.or_eq_false_iff, decide_eq_false_iff_not] at h
      simp [setKey, h.1, ih h.2]

theorem hasKey_append (a b : List (String × Json)) (k : String) :
    hasKey (a ++ b) k = (hasKey a k || hasKey b k) := by
  induction a with
  | nil => simp [hasKey]
  | cons kv rest ih =>
      obtain ⟨k2, v2⟩ := kv
      by_cases h : k2 = k
      · simp [hasKey, h]
      · simp [hasKey, h, ih]

theorem foldl_setKey_of_nodup :
    ∀ (fs acc : List (String × Json)),
      (fs.map Prod.fst).Nodup → (∀ kv ∈ fs, hasKey acc kv.1 = false) →
      fs.foldl (fun a kv => setKey a kv.1 kv.2) acc = acc ++ fs := by
  intro fs
  induction fs with
  | nil => intro acc _ _; simp
  | cons kv rest ih =>
      intro acc hnd hdisj
      obtain ⟨k, v⟩ := kv
      simp only [List.map_cons, List.nodup_cons] at hnd
      simp only [List.foldl_cons]
      rw [setKey_append_of_not_has acc k v (hdisj (k, v) (by simp))]
      rw [ih (acc ++ [(k, v)]) hnd.2 ?_]
      · simp
      · intro kv2 hkv2
        rw [hasKey_append]
        have h1 : hasKey acc kv2.1 = false := hdisj kv2 (by simp [hkv2])
        have h2 : hasKey [(k, v)] kv2.1 = false := by
          simp only [hasKey, Bool.or_false, decide_eq_false_iff_not]
          intro heq
          exact hnd.1 (by rw [heq]; exact List.mem_map_of_mem Prod.fst hkv2)
        rw [h1, h2]
        rfl

theorem foldl_setKey_preserve :
    ∀ (update acc : List (String × Json)) (k : String),
      (∀ kv ∈ update, kv.1 ≠ k) →
      getD (update.foldl (fun a kv => setKey a kv.1 kv.2) acc) k = getD acc k ∧
      hasKey (update.foldl (fun a kv => setKey a kv.1 kv.2) acc) k = hasKey acc k := by
  intro update
  induction update with
  | nil => intro acc k _; simp
  | cons kv rest ih =>
      intro acc k hne
      simp only [List.foldl_cons]
      have hkv : kv.1 ≠ k := hne kv (by simp)
      have := ih (setKey acc kv.1 kv.2) k (fun kv2 h2 => hne kv2 (by simp [h2]))
      rw [this.1, this.2, getD_setKey_ne acc kv.1 k kv.2 hkv,
        hasKey_setKey_ne acc kv.1 k kv.2 hkv]
      exact ⟨rfl, rfl⟩

/-- C8: saveLocalConfig merges the update into the stored object rather than
replacing it: every key of the previously stored object that the update does
not mention keeps its presence and its value in the written object. -/
theorem C8_save_local_config_merge (fs update : List (String × Json)) (k : String)
    (hnd : (fs.map Prod.fst).Nodup) (hk : hasKey fs k = true)
    (hku : ∀ kv ∈ update, kv.1 ≠ k) :
    ∃ gs, saveLocalConfig (some (Json.obj fs)) update = Json.obj gs ∧
      getD gs k = getD fs k ∧ hasKey gs k = true := by
  refine ⟨(fs ++ update).foldl (fun a kv => setKey a kv.1 kv.2) [], ?_, ?_⟩
  · simp [saveLocalConfig, truthy, spreadEntries]
  · rw [List.foldl_append]
    rw [foldl_setKey_of_nodup fs [] hnd (by intro kv _; simp [hasKey])]
    have hpres := foldl_setKey_preserve update fs k hku
    simp only [List.nil_append] at hpres ⊢
    rw [hpres.1, hpres.2]
    exact ⟨rfl, hk⟩

theorem C8_save_local_config_merge_witness :
    ∃ gs, saveLocalConfig (some (Json.obj [("server_url", Json.str "u")]))
        [("api_key", Json.str "k")] = Json.obj gs ∧
      getD gs "server_url" = getD [("server_url", Json.str "u")] "server_url" ∧
      hasKey gs "server_url" = true :=
  C8_save_local_config_merge [("server_url", Json.str "u")] [("api_key", Json.str "k")]
    "server_url" (by decide) (by decide) (by decide)

/-- The payload of a fetchJson result: parsed JSON or raw text. -/
inductive FetchPayload where
  | jsonData (j : Json) : FetchPayload
  | textData (s : String) : FetchPayload

/-- A completed HTTP response as consumed by fetchJson: status ok flag, the
content-type header, none for a null header, the JSON parse of the body
(none when JSON.parse rejects), and the text of the body stream. -/
structure FetchResponse where
  ok : Bool
  contentType : Option String
  jsonBody : Option Json
  textBody : String

/-- The outcome of the underlying global fetch call: a thrown network error
or a completed response. -/
inductive FetchOutcome where
  | networkError (message : String) : FetchOutcome
  | completed (r : FetchResponse) : FetchOutcome

/-- The value fetchJson returns to its callers. -/
structure FetchResult where
  ok : Bool
  data : FetchPayload

/-- Substring test on character lists, modelling String.prototype.includes as
used by the content-type check. -/
def hasSubstrL (pat : List Char) : List Char → Bool
  | [] => pat.isEmpty
  | c :: rest => pat.isPrefixOf (c :: rest) || hasSubstrL pat rest

/-- res.text: under the fetch of Node 18 and later the body stream admits a
single read; a read of an already-consumed body rejects with a TypeError
(Body is unusable), rendered as none. The second component is the bodyUsed
flag after the read. -/
def readBodyText (r : FetchResponse) (bodyUsed : Bool) : Option (String × Bool) :=
  if bodyUsed then none else some (r.textBody, true)

/-- res.json: reads the body text, then JSON.parse on it; jsonBody is that
abstract parse result. The body is consumed even when the parse throws, so
the returned bodyUsed flag is true either way. -/
def readBodyJson (r : FetchResponse) (bodyUsed : Bool) :
    Option (Option Json × Bool) :=
  match readBodyText r bodyUsed with
  | none => none
  | some (_, used2) => some (r.jsonBody, used2)

/-- fetchJson, lines 563 to 584: a thrown fetch is captured as a non-ok
result carrying a network error description. For a completed response whose
content type includes application slash json, res.json is awaited first; on
a JSON.parse rejection the catch awaits res.text on the now-consumed body,
and that second read rejects, a rejection nothing catches — the model
returns none for this raise. Other content types read the body once as
text. -/
def fetchJson (outcome : FetchOutcome) : Option FetchResult :=
  match outcome with
  | FetchOutcome.networkError msg =>
      some { ok := false, data := FetchPayload.textData ("Network error: " ++ msg) }
  | FetchOutcome.completed r =>
      let contentType := match r.contentType with
        | some s2 => s2
        | none => ""
      if hasSubstrL "application/json".toList contentType.toList then
        match readBodyJson r false with
        | none => none
        | some (some j, _) => some { ok := r.ok, data := FetchPayload.jsonData j }
        | some (none, used2) =>
            match readBodyText r used2 with
            | none => none
            | some (t, _) => some { ok := r.ok, data := FetchPayload.textData t }
      else
        match readBodyText r false with
        | none => none
        | some (t, _) => some { ok := r.ok, data := FetchPayload.textData t }

/-- C9: fetchJson CAN raise, contrary to the claim. It rejects exactly for a
completed response whose content type includes application slash json and
whose body fails JSON.parse: res.json consumes the body before the parse
throws, and the catch then awaits res.text on the consumed body, whose
TypeError escapes fetchJson. A network error still yields the non-ok
Network error result without raising, and a non-JSON content type yields
the raw text. -/
theorem C9_fetch_json_raises :
    (∀ out, fetchJson out = none ↔
      ∃ r, out = FetchOutcome.completed r ∧
        hasSubstrL "application/json".toList
          (match r.contentType with | some s2 => s2 | none => "").toList = true ∧
        r.jsonBody = none) ∧
    fetchJson (FetchOutcome.completed
        ⟨true, some "application/json", none, "not json"⟩) = none ∧
    fetchJson (FetchOutcome.networkError "boom")
      = some ⟨false, FetchPayload.textData ("Network error: " ++ "boom")⟩ ∧
    fetchJson (FetchOutcome.completed
        ⟨true, some "text/plain", none, "hello"⟩)
      = some ⟨true, FetchPayload.textData "hello"⟩ := by
  refine ⟨?_, rfl, rfl, rfl⟩
  intro out
  constructor
  · intro h
    cases out with
    | networkError msg => exact absurd h (by simp [fetchJson])
    | completed r =>
        by_cases hct : hasSubstrL "application/json".toList
            (match r.contentType with | some s2 => s2 | none => "").toList = true
        · cases hj : r.jsonBody with
          | none => exact ⟨r, rfl, hct, hj⟩
          | some j =>
              exfalso
              simp only [fetchJson, readBodyJson, readBodyText] at h
              rw [hct] at h
              simp [hj] at h
        · exfalso
          simp only [fetchJson, readBodyJson, readBodyText] at h
          rw [Bool.eq_false_of_ne_true hct] at h
          simp at h
  · intro hex
    obtain ⟨r, hr, hct, hj⟩ := hex
    subst hr
    simp only [fetchJson, readBodyJson, readBodyText]
    rw [hct]
    simp [hj]


/-- Characters of the regexp whitespace class and of String.prototype.trim,
restricted to the ASCII range the env files use. -/
def isJsWs (ch : Char) : Bool :=
  ch = ' ' || ch = '\t' || ch = '\n' || ch = '\r' || ch = '\x0b' || ch = '\x0c'

/-- Prepends a character to the first piece of a split result. -/
def consHead (c : Char) : List (List Char) → List (List Char)
  | l :: ls => (c :: l) :: ls
  | [] => [[c]]

/-- raw.split on the optional-carriage-return newline regular expression, on
character lists: break at every newline, consuming one carriage return
directly before it; a lone carriage return stays inside its line. -/
def splitCrNl : List Char → List (List Char)
  | [] => [[]]
  | '\n' :: rest => [] :: splitCrNl rest
  | '\r' :: '\n' :: rest => [] :: splitCrNl rest
  | '\r' :: c2 :: rest => consHead '\r' (splitCrNl (c2 :: rest))
  | ['\r'] => [['\r']]
  | c :: rest => consHead c (splitCrNl rest)

/-- The line list upsertEnvVar reads from an existing env file. -/
def splitEnvLines (raw : String) : List String :=
  (splitCrNl raw.toList).map String.mk

/-- The physical lines of a written file: its character content split at
every newline character. -/
def splitOnRawNl : List Char → List (List Char)
  | [] => [[]]
  | c :: rest =>
      if c = '\n' then [] :: splitOnRawNl rest
      else consHead c (splitOnRawNl rest)

/-- The physical lines of a file as a string list; a trailing newline shows
as a final empty piece. -/
def physicalLines (s : String) : List String :=
  (splitOnRawNl s.toList).map String.mk

/-- The line matcher regular expression of upsertEnvVar, line 836: optional
leading whitespace, an optional export keyword followed by whitespace, then
the key, made literal by escapeRegExp, then an equals sign. -/
def matchesKey (key line : String) : Bool :=
  let s := line.toList.dropWhile isJsWs
  (key.toList ++ ['=']).isPrefixOf s ||
    ("export".toList.isPrefixOf s &&
      ((s.drop 6).dropWhile isJsWs).length < (s.drop 6).length &&
      (key.toList ++ ['=']).isPrefixOf ((s.drop 6).dropWhile isJsWs))

/-- line.trimStart().startsWith of the export prefix, line 842, deciding
whether the replacement line keeps the export keyword. -/
def keepsExport (line : String) : Bool :=
  "export ".toList.isPrefixOf (line.toList.dropWhile isJsWs)

/-- String(value).replace escaping every double quote, line 834. -/
def escapeQuotes (value : String) : String :=
  String.mk ((value.toList.map
    (fun ch => if ch = '"' then ['\\', '"'] else [ch])).join)

/-- The KEY equals quoted-VALUE line written by upsertEnvVar, line 835. -/
def newEnvLine (key value : String) : String :=
  key ++ "=\"" ++ escapeQuotes value ++ "\""

/-- The line-list update of upsertEnvVar, lines 838 to 849: every matching
line is replaced in place, keeping its export prefix, and the new line is
appended when no line matches. -/
def upsertLines (lines : List String) (key value : String) : List String :=
  let replaced := lines.map (fun line =>
    if matchesKey key line then
      if keepsExport line then "export " ++ newEnvLine key value
      else newEnvLine key value
    else line)
  if lines.any (fun line => matchesKey key line) then replaced
  else replaced ++ [newEnvLine key value]

/-- Array.prototype.join with a newline separator. -/
def joinLines : List String → String
  | [] => ""
  | [l] => l
  | l :: l2 :: rest => l ++ "\n" ++ joinLines (l2 :: rest)

/-- The existing line list: empty for an absent file, the split content
otherwise. -/
def contentLines (content : Option String) : List String :=
  match content with
  | none => []
  | some raw => splitEnvLines raw

/-- The nonempty lines upsertEnvVar writes, after the falsy filter. -/
def writtenEnvLines (content : Option String) (key value : String) : List String :=
  (upsertLines (contentLines content) key value).filter (fun l => l ≠ "")

/-- upsertEnvVar, lines 824 to 853, on the modelled file content: split the
existing content into lines, update them, and write the nonempty lines
joined by newlines with one final trailing newline. -/
def upsertEnvVar (content : Option String) (key value : String) : String :=
  joinLines (writtenEnvLines content key value) ++ "\n"

theorem mk_toList (s : String) : String.mk s.toList = s := rfl

theorem splitOnRawNl_append (xs ys : List Char) (hxs : ∀ c ∈ xs, c ≠ '\n') :
    splitOnRawNl (xs ++ '\n' :: ys) = xs :: splitOnRawNl ys := by
  induction xs with
  | nil => rfl
  | cons c rest ih =>
      have hc : c ≠ '\n' := hxs c (by simp)
      have hrest : ∀ c2 ∈ rest, c2 ≠ '\n' := fun c2 h2 => hxs c2 (by simp [h2])
      rw [List.cons_append]
      show splitOnRawNl (c :: (rest ++ '\n' :: ys)) = (c :: rest) :: splitOnRawNl ys
      rw [splitOnRawNl, if_neg hc, ih hrest, consHead]


theorem mem_consHead {c : Char} {ps : List (List Char)} {l : List Char}
    (h : l ∈ consHead c ps) :
    (∃ p, p ∈ ps ∧ l = c :: p) ∨ l ∈ ps ∨ l = [c] := by
  cases ps with
  | nil =>
      simp only [consHead, List.mem_singleton] at h
      exact Or.inr (Or.inr h)
  | cons p ps2 =>
      simp only [consHead, List.mem_cons] at h
      rcases h with h | h
      · exact Or.inl ⟨p, by simp, h⟩
      · exact Or.inr (Or.inl (by simp [h]))

theorem splitCrNl_no_nl :
    ∀ (cs : List Char), ∀ l ∈ splitCrNl cs, ∀ c ∈ l, c ≠ '\n' := by
  intro cs
  induction cs using splitCrNl.induct with
  | case1 =>
      intro l hl c hc
      simp only [splitCrNl, List.mem_singleton] at hl
      subst hl
      simp at hc
  | case2 rest ih =>
      intro l hl c hc
      simp only [splitCrNl, List.mem_cons] at hl
      rcases hl with hl | hl
      · subst hl; simp at hc
      · exact ih l hl c hc
  | case3 rest ih =>
      intro l hl c hc
      simp only [splitCrNl, List.mem_cons] at hl
      rcases hl with hl | hl
      · subst hl; simp at hc
      · exact ih l hl c hc
  | case4 c2 rest hne ih =>
      intro l hl c hc
      rw [splitCrNl.eq_4 c2 rest hne] at hl
      rcases mem_consHead hl with ⟨p, hp, hlp⟩ | hl2 | hl2
      · subst hlp
        rcases List.mem_cons.mp hc with hc2 | hc2
        · subst hc2; decide
        · exact ih p hp c hc2
      · exact ih l hl2 c hc
      · subst hl2
        rcases List.mem_singleton.mp hc with hc2
        subst hc2; decide
  | case5 =>
      intro l hl c hc
      simp only [splitCrNl, List.mem_singleton] at hl
      subst hl
      rcases List.mem_singleton.mp hc with hc2
      subst hc2; decide
  | case6 c0 rest hne1 hne2 hne3 hne4 ih =>
      intro l hl c hc
      rw [splitCrNl.eq_6 c0 rest hne1 hne2 hne3 hne4] at hl
      have hc0 : c0 ≠ '\n' := fun hh => hne1 hh
      rcases mem_consHead hl with ⟨p, hp, hlp⟩ | hl2 | hl2
      · subst hlp
        rcases List.mem_cons.mp hc with hc2 | hc2
        · subst hc2; exact hc0
        · exact ih p hp c hc2
      · exact ih l hl2 c hc
      · subst hl2
        rcases List.mem_singleton.mp hc with hc2
        subst hc2; exact hc0

theorem physicalLines_joinLines :
    ∀ (L : List String), L ≠ [] → (∀ l ∈ L, ∀ c ∈ l.toList, c ≠ '\n') →
      physicalLines (joinLines L ++ "\n") = L ++ [""] := by
  intro L
  induction L with
  | nil => intro h _; exact absurd rfl h
  | cons l L2 ih =>
      intro _ hfree
      cases L2 with
      | nil =>
          simp only [joinLines, physicalLines]
          rw [show (l ++ "\n").toList = l.toList ++ '\n' :: [] from by
            rw [toList_append_str]; rfl]
          rw [splitOnRawNl_append l.toList [] (hfree l (by simp))]
          simp [splitOnRawNl, mk_toList]
      | cons l2 L3 =>
          simp only [joinLines, physicalLines]
          rw [show ((l ++ "\n" ++ joinLines (l2 :: L3)) ++ "\n").toList
              = l.toList ++ '\n' :: ((joinLines (l2 :: L3) ++ "\n").toList) from by
            rw [toList_append_str, toList_append_str, toList_append_str,
              toList_append_str]
            simp [List.append_assoc]]
          rw [splitOnRawNl_append l.toList _ (hfree l (by simp))]
          simp only [List.map_cons, mk_toList]
          have hih := ih (by simp) (fun l3 h3 => hfree l3 (by simp [h3]))
          simp only [physicalLines] at hih
          rw [hih]
          rfl

theorem isPrefixOf_nil_false (xs : List Char) (h : xs ≠ []) :
    xs.isPrefixOf ([] : List Char) = false := by
  cases xs with
  | nil => exact absurd rfl h
  | cons a as => rfl

theorem matchesKey_empty (key : String) : matchesKey key "" = false := by
  unfold matchesKey
  rw [show ("" : String).toList = [] from rfl]
  simp only [List.dropWhile_nil, List.drop_nil, List.dropWhile_nil]
  rw [isPrefixOf_nil_false _ (by simp), isPrefixOf_nil_false _ (by decide)]
  rfl

theorem matchesKey_ne_empty (key l : String) (h : matchesKey key l = true) :
    l ≠ "" := by
  intro he
  rw [he, matchesKey_empty] at h
  exact absurd h (by simp)

theorem matchesKey_of_ws (key l : String)
    (hws : ∀ c ∈ l.toList, isJsWs c = true) : matchesKey key l = false := by
  unfold matchesKey
  rw [List.dropWhile_eq_nil_iff.mpr hws]
  simp only [List.drop_nil, List.dropWhile_nil]
  rw [isPrefixOf_nil_false _ (by simp), isPrefixOf_nil_false _ (by decide)]
  rfl

theorem dropWhile_head_not {p : Char → Bool} :
    ∀ (l : List Char) (c : Char) (t : List Char),
      l.dropWhile p = c :: t → p c = false := by
  intro l
  induction l with
  | nil => intro c t h; simp at h
  | cons a as ih =>
      intro c t h
      by_cases hp : p a = true
      · rw [List.dropWhile_cons_of_pos hp] at h
        exact ih c t h
      · rw [List.dropWhile_cons_of_neg hp] at h
        injection h with h1 _
        rw [← h1]
        simpa using hp


theorem newEnvLine_toList (key value : String) :
    (newEnvLine key value).toList
      = key.toList ++ '=' :: '"' :: ((escapeQuotes value).toList ++ ['"']) := by
  unfold newEnvLine
  rw [toList_append_str, toList_append_str, toList_append_str,
    show ("=\"" : String).toList = ['=', '"'] from rfl,
    show ("\"" : String).toList = ['"'] from rfl]
  simp [List.append_assoc]

theorem newEnvLine_ne_empty (key value : String) : newEnvLine key value ≠ "" := by
  intro h
  have h2 := congrArg String.toList h
  rw [newEnvLine_toList, show ("" : String).toList = [] from rfl] at h2
  rcases List.append_eq_nil.mp h2 with ⟨_, h3⟩
  simp at h3

theorem export_line_ne_empty (key value : String) :
    ("export " ++ newEnvLine key value) ≠ "" := by
  intro h
  have h2 := congrArg String.toList h
  rw [toList_append_str, show ("" : String).toList = [] from rfl] at h2
  rcases List.append_eq_nil.mp h2 with ⟨h3, _⟩
  simp at h3

theorem escapeQuotes_chars (value : String) (c : Char)
    (h : c ∈ (escapeQuotes value).toList) : c = '\\' ∨ c ∈ value.toList := by
  unfold escapeQuotes at h
  rw [show (String.mk ((value.toList.map
      (fun ch => if ch = '"' then ['\\', '"'] else [ch])).join)).toList
    = (value.toList.map (fun ch => if ch = '"' then ['\\', '"'] else [ch])).join
    from rfl] at h
  rw [List.mem_join] at h
  obtain ⟨piece, hpiece, hc⟩ := h
  rw [List.mem_map] at hpiece
  obtain ⟨ch, hch, hpe⟩ := hpiece
  by_cases hq : ch = '"'
  · rw [if_pos hq] at hpe
    rw [← hpe] at hc
    rcases List.mem_cons.mp hc with h2 | h2
    · exact Or.inl h2
    · rcases List.mem_singleton.mp h2 with h3
      subst h3
      exact Or.inr (by rw [← hq] at *; exact hch)
  · rw [if_neg hq] at hpe
    rw [← hpe] at hc
    rcases List.mem_singleton.mp hc with h3
    subst h3
    exact Or.inr hch

theorem newEnvLine_no_nl (key value : String)
    (hkey : ∀ c ∈ key.toList, c ≠ '\n') (hval : ∀ c ∈ value.toList, c ≠ '\n') :
    ∀ c ∈ (newEnvLine key value).toList, c ≠ '\n' := by
  intro c hc
  rw [newEnvLine_toList] at hc
  rcases List.mem_append.mp hc with hc | hc
  · exact hkey c hc
  · rcases List.mem_cons.mp hc with hc | hc
    · subst hc; decide
    rcases List.mem_cons.mp hc with hc | hc
    · subst hc; decide
    rcases List.mem_append.mp hc with hc | hc
    · rcases escapeQuotes_chars value c hc with h | h
      · subst h; decide
      · exact hval c h
    · rcases List.mem_singleton.mp hc with h
      subst h; decide

theorem export_line_no_nl (key value : String)
    (hkey : ∀ c ∈ key.toList, c ≠ '\n') (hval : ∀ c ∈ value.toList, c ≠ '\n') :
    ∀ c ∈ ("export " ++ newEnvLine key value).toList, c ≠ '\n' := by
  intro c hc
  rw [toList_append_str] at hc
  rcases List.mem_append.mp hc with hc | hc
  · have hexp : ∀ c2 ∈ ("export " : String).toList, c2 ≠ '\n' := by decide
    exact hexp c hc
  · exact newEnvLine_no_nl key value hkey hval c hc

theorem matchesKey_keyHeadOk (key l : String) (h : matchesKey key l = true) :
    ∀ c t, key.toList = c :: t → isJsWs c = false := by
  intro c t hk
  unfold matchesKey at h
  rw [hk] at h
  simp only [Bool.or_eq_true, Bool.and_eq_true, decide_eq_true_eq] at h
  rcases h with h | ⟨⟨hexp, hlen⟩, hpre⟩
  · rw [List.isPrefixOf_iff_prefix] at h
    obtain ⟨r, hr⟩ := h
    simp only [List.cons_append] at hr
    exact dropWhile_head_not l.toList c _ hr.symm
  · rw [List.isPrefixOf_iff_prefix] at hpre
    obtain ⟨r, hr⟩ := hpre
    simp only [List.cons_append] at hr
    exact dropWhile_head_not _ c _ hr.symm

theorem matchesKey_newEnvLine (key value : String)
    (hok : ∀ c t, key.toList = c :: t → isJsWs c = false) :
    matchesKey key (newEnvLine key value) = true := by
  unfold matchesKey
  rw [newEnvLine_toList]
  have hdw : List.dropWhile isJsWs
      (key.toList ++ '=' :: '"' :: ((escapeQuotes value).toList ++ ['"']))
      = key.toList ++ '=' :: '"' :: ((escapeQuotes value).toList ++ ['"']) := by
    cases hk : key.toList with
    | nil =>
        rw [List.nil_append, List.dropWhile_cons_of_neg (by decide)]
    | cons c t =>
        rw [List.cons_append,
          List.dropWhile_cons_of_neg (by simp [hok c t hk]), ← List.cons_append]
  rw [hdw]
  have hfst : (key.toList ++ ['=']).isPrefixOf
      (key.toList ++ '=' :: '"' :: ((escapeQuotes value).toList ++ ['"'])) = true := by
    rw [List.isPrefixOf_iff_prefix]
    exact ⟨'"' :: ((escapeQuotes value).toList ++ ['"']), by simp [List.append_assoc]⟩
  simp [hfst]

theorem matchesKey_export_newEnvLine (key value : String)
    (hok : ∀ c t, key.toList = c :: t → isJsWs c = false) :
    matchesKey key ("export " ++ newEnvLine key value) = true := by
  have hdw2 : List.dropWhile isJsWs
      (key.toList ++ '=' :: '"' :: ((escapeQuotes value).toList ++ ['"']))
      = key.toList ++ '=' :: '"' :: ((escapeQuotes value).toList ++ ['"']) := by
    cases hk : key.toList with
    | nil =>
        rw [List.nil_append, List.dropWhile_cons_of_neg (by decide)]
    | cons c t =>
        rw [List.cons_append,
          List.dropWhile_cons_of_neg (by simp [hok c t hk]), ← List.cons_append]
  have hs : List.dropWhile isJsWs (("export " ++ newEnvLine key value).toList)
      = 'e' :: 'x' :: 'p' :: 'o' :: 'r' :: 't' :: ' ' ::
        (key.toList ++ '=' :: '"' :: ((escapeQuotes value).toList ++ ['"'])) := by
    rw [toList_append_str, newEnvLine_toList,
      show ("export " : String).toList
        = 'e' :: 'x' :: 'p' :: 'o' :: 'r' :: 't' :: [' '] from rfl]
    rw [show ('e' :: 'x' :: 'p' :: 'o' :: 'r' :: 't' :: [' ']) ++
        (key.toList ++ '=' :: '"' :: ((escapeQuotes value).toList ++ ['"']))
      = 'e' :: ('x' :: 'p' :: 'o' :: 'r' :: 't' :: ' ' ::
        (key.toList ++ '=' :: '"' :: ((escapeQuotes value).toList ++ ['"']))) from rfl]
    rw [List.dropWhile_cons_of_neg (by decide)]
  unfold matchesKey
  rw [hs]
  have hpre : (key.toList ++ ['=']).isPrefixOf
      (key.toList ++ '=' :: '"' :: ((escapeQuotes value).toList ++ ['"'])) = true := by
    rw [List.isPrefixOf_iff_prefix]
    exact ⟨'"' :: ((escapeQuotes value).toList ++ ['"']), by simp [List.append_assoc]⟩
  rw [Bool.or_eq_true]
  right
  rw [Bool.and_eq_true, Bool.and_eq_true]
  refine ⟨⟨by simp [List.isPrefixOf], ?_⟩, ?_⟩
  · rw [show List.drop 6 ('e' :: 'x' :: 'p' :: 'o' :: 'r' :: 't' :: ' ' ::
        (key.toList ++ '=' :: '"' :: ((escapeQuotes value).toList ++ ['"'])))
      = ' ' :: (key.toList ++ '=' :: '"' :: ((escapeQuotes value).toList ++ ['"']))
      from rfl]
    rw [List.dropWhile_cons_of_pos (by decide), hdw2]
    simp
  · rw [show List.drop 6 ('e' :: 'x' :: 'p' :: 'o' :: 'r' :: 't' :: ' ' ::
        (key.toList ++ '=' :: '"' :: ((escapeQuotes value).toList ++ ['"'])))
      = ' ' :: (key.toList ++ '=' :: '"' :: ((escapeQuotes value).toList ++ ['"']))
      from rfl]
    rw [List.dropWhile_cons_of_pos (by decide), hdw2]
    exact hpre

theorem keepsExport_of_startsWith (l : String) (h : jsStartsWith l "export " = true) :
    keepsExport l = true := by
  unfold jsStartsWith at h
  unfold keepsExport
  rw [List.isPrefixOf_iff_prefix] at h ⊢
  obtain ⟨r, hr⟩ := h
  rw [← hr, show ("export " : String).toList
      = 'e' :: ['x', 'p', 'o', 'r', 't', ' '] from rfl,
    List.cons_append, List.dropWhile_cons_of_neg (by decide)]
  exact ⟨r, rfl⟩


theorem mem_upsertLines (lines : List String) (key value : String) (l : String)
    (h : l ∈ upsertLines lines key value) :
    l = newEnvLine key value ∨ l = "export " ++ newEnvLine key value ∨ l ∈ lines := by
  unfold upsertLines at h
  simp only at h
  by_cases hany : lines.any (fun line => matchesKey key line) = true
  · rw [if_pos hany] at h
    obtain ⟨x, hx, hfx⟩ := List.mem_map.mp h
    by_cases hm : matchesKey key x = true
    · rw [if_pos hm] at hfx
      by_cases hk : keepsExport x = true
      · rw [if_pos hk] at hfx
        exact Or.inr (Or.inl hfx.symm)
      · rw [if_neg hk] at hfx
        exact Or.inl hfx.symm
    · rw [if_neg hm] at hfx
      exact Or.inr (Or.inr (hfx ▸ hx))
  · rw [if_neg hany] at h
    rcases List.mem_append.mp h with h2 | h2
    · obtain ⟨x, hx, hfx⟩ := List.mem_map.mp h2
      by_cases hm : matchesKey key x = true
      · rw [if_pos hm] at hfx
        by_cases hk : keepsExport x = true
        · rw [if_pos hk] at hfx
          exact Or.inr (Or.inl hfx.symm)
        · rw [if_neg hk] at hfx
          exact Or.inl hfx.symm
      · rw [if_neg hm] at hfx
        exact Or.inr (Or.inr (hfx ▸ hx))
    · rcases List.mem_singleton.mp h2 with h3
      exact Or.inl h3

theorem upsertLines_has_nonempty (lines : List String) (key value : String) :
    ∃ l, l ∈ upsertLines lines key value ∧ l ≠ "" := by
  unfold upsertLines
  simp only
  by_cases hany : lines.any (fun line => matchesKey key line) = true
  · rw [if_pos hany]
    obtain ⟨line, hline, hmatch⟩ := List.any_eq_true.mp hany
    refine ⟨if matchesKey key line then
        (if keepsExport line then "export " ++ newEnvLine key value
         else newEnvLine key value)
      else line, List.mem_map_of_mem _ hline, ?_⟩
    rw [if_pos hmatch]
    split
    · exact export_line_ne_empty key value
    · exact newEnvLine_ne_empty key value
  · rw [if_neg hany]
    exact ⟨newEnvLine key value, by simp, newEnvLine_ne_empty key value⟩

theorem writtenEnvLines_spec (content : Option String) (key value : String)
    (hkey : ∀ c ∈ key.toList, c ≠ '\n') (hval : ∀ c ∈ value.toList, c ≠ '\n') :
    writtenEnvLines content key value ≠ [] ∧
    "" ∉ writtenEnvLines content key value ∧
    (∀ l ∈ writtenEnvLines content key value, ∀ c ∈ l.toList, c ≠ '\n') := by
  have hlines : ∀ l ∈ contentLines content, ∀ c ∈ l.toList, c ≠ '\n' := by
    cases content with
    | none => intro l hl; simp [contentLines] at hl
    | some raw =>
        simp only [contentLines]
        intro l hl c hc
        obtain ⟨p, hp, hmk⟩ := List.mem_map.mp hl
        rw [← hmk] at hc
        exact splitCrNl_no_nl raw.toList p hp c hc
  refine ⟨?_, ?_, ?_⟩
  · obtain ⟨l, hl, hne⟩ := upsertLines_has_nonempty _ key value
    have hmem : l ∈ writtenEnvLines content key value := by
      unfold writtenEnvLines
      exact List.mem_filter.mpr ⟨hl, by simp [hne]⟩
    exact List.ne_nil_of_mem hmem
  · intro hmem
    unfold writtenEnvLines at hmem
    rw [List.mem_filter] at hmem
    simp at hmem
  · intro l hl c hc
    unfold writtenEnvLines at hl
    rw [List.mem_filter] at hl
    rcases mem_upsertLines _ key value l hl.1 with h2 | h2 | h2
    · subst h2
      exact newEnvLine_no_nl key value hkey hval c hc
    · subst h2
      exact export_line_no_nl key value hkey hval c hc
    · exact hlines l h2 c hc

/-- The claimed shape of a written env file: it is nonempty, ends with
exactly one trailing newline, shown as a single final empty split piece, and
contains no empty line before it. -/
def goodEnvFile (s : String) : Prop :=
  physicalLines s ≠ [] ∧ (physicalLines s).getLast? = some "" ∧
    "" ∉ (physicalLines s).dropLast

theorem physicalLines_upsertEnvVar (content : Option String) (key value : String)
    (hkey : ∀ c ∈ key.toList, c ≠ '\n') (hval : ∀ c ∈ value.toList, c ≠ '\n') :
    physicalLines (upsertEnvVar content key value)
      = writtenEnvLines content key value ++ [""] := by
  unfold upsertEnvVar
  obtain ⟨hne, _, hfree⟩ := writtenEnvLines_spec content key value hkey hval
  exact physicalLines_joinLines _ hne hfree


/-- C10 counterexample: with a value containing consecutive newline
characters, the written env file contains an empty physical line before the
trailing one, refuting the claim as stated for every call. -/
theorem C10_env_file_counterexample :
    ¬goodEnvFile (upsertEnvVar none "K" "a\n\nb") := by
  unfold goodEnvFile
  decide

/-- C10 (amended): provided the upserted key and value contain no newline
characters, the written env file has no empty line, whitespace-only nonempty
lines of the previous content are kept, and the file ends with exactly one
trailing newline, shown as the single final empty split piece. -/
theorem C10_env_file_shape (content : Option String) (key value : String)
    (hkey : ∀ c ∈ key.toList, c ≠ '\n') (hval : ∀ c ∈ value.toList, c ≠ '\n') :
    goodEnvFile (upsertEnvVar content key value) ∧
    (∀ raw, content = some raw → ∀ l ∈ splitEnvLines raw, l ≠ "" →
      (∀ c ∈ l.toList, isJsWs c = true) →
      l ∈ physicalLines (upsertEnvVar content key value)) := by
  have hphys := physicalLines_upsertEnvVar content key value hkey hval
  obtain ⟨hne, hnomem, hfree⟩ := writtenEnvLines_spec content key value hkey hval
  constructor
  · refine ⟨?_, ?_, ?_⟩
    · rw [hphys]
      simp
    · rw [hphys, List.getLast?_append]
      rfl
    · rw [hphys, List.dropLast_append]
      simpa using hnomem
  · intro raw hraw l hl hlne hws
    subst hraw
    rw [hphys]
    have hmatch : matchesKey key l = false := matchesKey_of_ws key l hws
    have hfl : (if matchesKey key l then
        (if keepsExport l then "export " ++ newEnvLine key value
         else newEnvLine key value)
      else l) = l := by
      rw [if_neg (by simp [hmatch])]
    have hlin : l ∈ upsertLines (contentLines (some raw)) key value := by
      unfold upsertLines
      simp only [contentLines]
      have hmem : l ∈ (splitEnvLines raw).map (fun line =>
          if matchesKey key line then
            (if keepsExport line then "export " ++ newEnvLine key value
             else newEnvLine key value)
          else line) := by
        rw [← hfl]
        exact List.mem_map_of_mem _ hl
      split
      · exact hmem
      · exact List.mem_append_left _ hmem
    have : l ∈ writtenEnvLines (some raw) key value :=
      List.mem_filter.mpr ⟨hlin, by simp [hlne]⟩
    exact List.mem_append_left _ this

theorem C10_env_file_shape_witness :
    goodEnvFile (upsertEnvVar (some "A=\"1\"") "K" "v") ∧
    " " ∈ physicalLines (upsertEnvVar (some " ") "K" "v") :=
  ⟨(C10_env_file_shape (some "A=\"1\"") "K" "v" (by decide) (by decide)).1,
   (C10_env_file_shape (some " ") "K" "v" (by decide) (by decide)).2 " " rfl " "
     (by decide) (by decide) (by decide)⟩


/-- C7 counterexample: with a new value containing a newline and an embedded
assignment, the input file has exactly one line assigning OLD_KEY, yet the
written file has two physical lines assigning OLD_KEY, refuting the claim as
stated for arbitrary new values. -/
theorem C7_env_upsert_counterexample :
    (splitEnvLines "OLD_KEY=\"x\"").countP (fun l => matchesKey "OLD_KEY" l) = 1 ∧
    (physicalLines (upsertEnvVar (some "OLD_KEY=\"x\"") "OLD_KEY"
        "a\nOLD_KEY=\"b\"")).countP (fun l => matchesKey "OLD_KEY" l) = 2 := by
  constructor
  · decide
  · decide

/-- C7 (amended): provided the key and the new value contain no newline
characters, upserting into a file with exactly one line assigning the key
yields a file with exactly one line for the key, which is the new assignment
line, optionally export-prefixed; an export-prefixed existing line keeps its
export prefix; and with no assigning line the new assignment line is appended
after the kept nonempty lines. -/
theorem C7_env_upsert (raw key value : String)
    (hkey : ∀ c ∈ key.toList, c ≠ '\n') (hval : ∀ c ∈ value.toList, c ≠ '\n') :
    ((splitEnvLines raw).countP (fun l => matchesKey key l) = 1 →
      ((physicalLines (upsertEnvVar (some raw) key value)).countP
          (fun l => matchesKey key l) = 1 ∧
       (∀ l ∈ physicalLines (upsertEnvVar (some raw) key value),
          matchesKey key l = true →
          l = newEnvLine key value ∨ l = "export " ++ newEnvLine key value) ∧
       (∀ l ∈ splitEnvLines raw, matchesKey key l = true →
          jsStartsWith l "export " = true →
          ("export " ++ newEnvLine key value)
            ∈ physicalLines (upsertEnvVar (some raw) key value)))) ∧
    ((splitEnvLines raw).countP (fun l => matchesKey key l) = 0 →
      physicalLines (upsertEnvVar (some raw) key value)
        = (splitEnvLines raw).filter (fun l => l ≠ "")
            ++ [newEnvLine key value, ""]) := by
  have hphys := physicalLines_upsertEnvVar (some raw) key value hkey hval
  constructor
  · intro hcount
    have hany : (splitEnvLines raw).any (fun line => matchesKey key line) = true := by
      cases hb : (splitEnvLines raw).any (fun line => matchesKey key line) with
      | true => rfl
      | false =>
          exfalso
          have hzero : (splitEnvLines raw).countP (fun l => matchesKey key l) = 0 := by
            rw [List.countP_eq_zero]
            intro a ha hpa
            have h2 := List.any_eq_true.mpr ⟨a, ha, hpa⟩
            rw [hb] at h2
            exact absurd h2 (by simp)
          rw [hzero] at hcount
          exact absurd hcount (by simp)
    obtain ⟨line0, hline0, hm0⟩ := List.any_eq_true.mp hany
    have hok := matchesKey_keyHeadOk key line0 hm0
    have hpnew := matchesKey_newEnvLine key value hok
    have hpexp := matchesKey_export_newEnvLine key value hok
    have hups : upsertLines (contentLines (some raw)) key value
        = (splitEnvLines raw).map (fun line =>
            if matchesKey key line then
              (if keepsExport line then "export " ++ newEnvLine key value
               else newEnvLine key value)
            else line) := by
      unfold upsertLines
      simp only [contentLines]
      rw [if_pos hany]
    refine ⟨?_, ?_, ?_⟩
    · rw [hphys, List.countP_append]
      have hz1 : List.countP (fun l => matchesKey key l) [""] = 0 := by
        rw [List.countP_cons, List.countP_nil, matchesKey_empty]
        simp
      rw [hz1]
      unfold writtenEnvLines
      rw [List.countP_filter, hups, List.countP_map]
      have hc1 : List.countP ((fun a => matchesKey key a && decide (a ≠ "")) ∘
          (fun line =>
            if matchesKey key line then
              (if keepsExport line then "export " ++ newEnvLine key value
               else newEnvLine key value)
            else line)) (splitEnvLines raw)
          = List.countP (fun l => matchesKey key l) (splitEnvLines raw) := by
        apply List.countP_congr
        intro x hx
        simp only [Function.comp]
        by_cases hpx : matchesKey key x = true
        · by_cases hke : keepsExport x = true
          · simp [hpx, hke, hpexp, export_line_ne_empty key value]
          · simp [hpx, Bool.eq_false_of_ne_true hke, hpnew,
              newEnvLine_ne_empty key value]
        · simp [Bool.eq_false_of_ne_true hpx]
      rw [hc1, hcount]
    · intro l hl hpl
      rw [hphys] at hl
      rcases List.mem_append.mp hl with hl2 | hl2
      · unfold writtenEnvLines at hl2
        rw [List.mem_filter] at hl2
        rw [hups] at hl2
        obtain ⟨x, hx, hfx⟩ := List.mem_map.mp hl2.1
        by_cases hpx : matchesKey key x = true
        · rw [if_pos hpx] at hfx
          by_cases hke : keepsExport x = true
          · rw [if_pos hke] at hfx
            exact Or.inr hfx.symm
          · rw [if_neg hke] at hfx
            exact Or.inl hfx.symm
        · rw [if_neg hpx] at hfx
          rw [← hfx] at hpl
          exact absurd hpl (by simp [hpx])
      · rcases List.mem_singleton.mp hl2 with h3
        rw [h3, matchesKey_empty] at hpl
        exact absurd hpl (by simp)
    · intro l hl hpl hexp
      rw [hphys]
      have hke := keepsExport_of_startsWith l hexp
      have hfl : (fun line =>
          if matchesKey key line then
            (if keepsExport line then "export " ++ newEnvLine key value
             else newEnvLine key value)
          else line) l = "export " ++ newEnvLine key value := by
        simp only
        rw [if_pos hpl, if_pos hke]
      have hmem : ("export " ++ newEnvLine key value)
          ∈ upsertLines (contentLines (some raw)) key value := by
        rw [hups]
        exact List.mem_map.mpr ⟨l, hl, hfl⟩
      have hmem2 : ("export " ++ newEnvLine key value)
          ∈ writtenEnvLines (some raw) key value :=
        List.mem_filter.mpr ⟨hmem, by simp [export_line_ne_empty key value]⟩
      exact List.mem_append_left _ hmem2
  · intro hcount
    have hall := List.countP_eq_zero.mp hcount
    have hnone : (splitEnvLines raw).any (fun line => matchesKey key line) = false := by
      cases hb : (splitEnvLines raw).any (fun line => matchesKey key line) with
      | false => rfl
      | true =>
          obtain ⟨x, hx, hpx⟩ := List.any_eq_true.mp hb
          exact absurd hpx (hall x hx)
    have hmapid : (splitEnvLines raw).map (fun line =>
        if matchesKey key line then
          (if keepsExport line then "export " ++ newEnvLine key value
           else newEnvLine key value)
        else line) = splitEnvLines raw := by
      have h1 := List.map_congr_left (l := splitEnvLines raw)
        (f := fun line =>
          if matchesKey key line then
            (if keepsExport line then "export " ++ newEnvLine key value
             else newEnvLine key value)
          else line)
        (g := fun x => x)
        (fun a ha => by simp [Bool.eq_false_of_ne_true (hall a ha)])
      rw [h1]
      simp
    have hups : upsertLines (contentLines (some raw)) key value
        = splitEnvLines raw ++ [newEnvLine key value] := by
      unfold upsertLines
      simp only [contentLines]
      rw [if_neg (by simp [hnone]), hmapid]
    rw [hphys]
    unfold writtenEnvLines
    rw [hups, List.filter_append]
    have hfnew : [newEnvLine key value].filter (fun l => l ≠ "")
        = [newEnvLine key value] := by
      simp [newEnvLine_ne_empty key value]
    rw [hfnew, List.append_assoc]
    rfl

theorem C7_env_upsert_witness :
    (physicalLines (upsertEnvVar (some "OLD_KEY=\"x\"") "OLD_KEY" "y")).countP
        (fun l => matchesKey "OLD_KEY" l) = 1 ∧
    ("export " ++ newEnvLine "OLD_KEY" "y")
      ∈ physicalLines (upsertEnvVar (some "export OLD_KEY=\"x\"") "OLD_KEY" "y") ∧
    physicalLines (upsertEnvVar (some "A=\"1\"") "OLD_KEY" "y")
      = (splitEnvLines "A=\"1\"").filter (fun l => l ≠ "")
          ++ [newEnvLine "OLD_KEY" "y", ""] :=
  ⟨((C7_env_upsert "OLD_KEY=\"x\"" "OLD_KEY" "y" (by decide) (by decide)).1
      (by decide)).1,
   ((C7_env_upsert "export OLD_KEY=\"x\"" "OLD_KEY" "y" (by decide) (by decide)).1
      (by decide)).2.2 "export OLD_KEY=\"x\"" (by decide) (by decide) (by decide),
   (C7_env_upsert "A=\"1\"" "OLD_KEY" "y" (by decide) (by decide)).2 (by decide)⟩

end LoyalSetup
